import Mathlib

/-!
Verification of the tsbean-orm core (change-tracking persistence, filter
builders, type coercion) against its specification.

The embedding models JavaScript runtime values as a tagged tree: every
heap-allocated value (date, array, plain object, function, tracker) carries a
numeric identity tag modelling its JS object identity.  Fresh allocation is
modelled by threading a counter: a function that allocates takes the next free
tag and returns the new counter.  Primitive values (null, undefined, booleans,
numbers, strings) are compared by value, exactly as JS `===` does.

JS numbers are modelled as integers: no claim under verification involves
non-integral or NaN arithmetic.  Functions and `DataAccessObject` values are
modelled opaquely (identity tag only): the code under verification only ever
tests for them and skips them; their internals are never read.
-/

mutual

/-- Model of a JavaScript runtime value as the ORM sees it.  Heap values carry
an identity tag (their JS object identity). -/
inductive Value where
  | vNull
  | vUndefined
  | vBool (b : Bool)
  | vNum (n : Int)
  | vStr (s : String)
  | vDate (tag : Nat) (time : Int)
  | vFunc (tag : Nat)
  | vDAO (tag : Nat)
  | vArr (tag : Nat) (elems : ValueList)
  | vObj (tag : Nat) (fields : FieldList)
deriving Repr

/-- List of values (the contents of a JS array). -/
inductive ValueList where
  | nil
  | cons (v : Value) (tl : ValueList)
deriving Repr

/-- Ordered key/value entries of a JS object (JS objects preserve insertion
order; keys of a JS object are pairwise distinct). -/
inductive FieldList where
  | nil
  | cons (k : String) (v : Value) (tl : FieldList)
deriving Repr

end

/-- Length of a value list. -/
def ValueList.length : ValueList → Nat
  | .nil => 0
  | .cons _ tl => 1 + tl.length

/-- Positional access into a value list; out of range gives `undefined` the way
a JS index read does. -/
def ValueList.get : ValueList → Nat → Value
  | .nil, _ => .vUndefined
  | .cons v _, 0 => v
  | .cons _ tl, n + 1 => tl.get n

/-- Conversion to a Lean list, for use in theorem statements. -/
def ValueList.toList : ValueList → List Value
  | .nil => []
  | .cons v tl => v :: tl.toList

/-- Length of a field list. -/
def FieldList.length : FieldList → Nat
  | .nil => 0
  | .cons _ _ tl => 1 + tl.length

/-- Keys of an object in insertion order (model of `Object.keys`). -/
def FieldList.keys : FieldList → List String
  | .nil => []
  | .cons k _ tl => k :: tl.keys

/-- Conversion to a Lean list of pairs, for use in theorem statements. -/
def FieldList.toList : FieldList → List (String × Value)
  | .nil => []
  | .cons k v tl => (k, v) :: tl.toList

/-- Property read `o[k]` on an object's entries: the first entry with the key
(JS keys are unique), `undefined` when absent. -/
def FieldList.getFieldOf : FieldList → String → Value
  | .nil, _ => .vUndefined
  | .cons k v tl, key => if k == key then v else tl.getFieldOf key

/-- Model of the JS `typeof` operator on the value model. -/
def jsTypeof : Value → String
  | .vNull => ("object")
  | .vUndefined => ("undefined")
  | .vBool _ => ("boolean")
  | .vNum _ => ("number")
  | .vStr _ => ("string")
  | .vDate _ _ => ("object")
  | .vFunc _ => ("function")
  | .vDAO _ => ("object")
  | .vArr _ _ => ("object")
  | .vObj _ _ => ("object")

/-- Model of JS strict equality `===`: primitives by value, heap values by
identity tag. -/
def jsStrictEq : Value → Value → Bool
  | .vNull, .vNull => true
  | .vUndefined, .vUndefined => true
  | .vBool a, .vBool b => a == b
  | .vNum a, .vNum b => a == b
  | .vStr a, .vStr b => a == b
  | .vDate a _, .vDate b _ => a == b
  | .vFunc a, .vFunc b => a == b
  | .vDAO a, .vDAO b => a == b
  | .vArr a _, .vArr b _ => a == b
  | .vObj a _, .vObj b _ => a == b
  | _, _ => false

/-- Model of JS truthiness (`if (x)`): null, undefined, false, 0 and the empty
string are falsy; every heap value is truthy. -/
def jsTruthy : Value → Bool
  | .vNull => false
  | .vUndefined => false
  | .vBool b => b
  | .vNum n => !(n == 0)
  | .vStr s => !(s == "")
  | _ => true

/-- Property read `o[k]` on any value: fields of a plain object, `undefined`
otherwise (no claim reads keyed properties of non-objects). -/
def getField : Value → String → Value
  | .vObj _ f, k => f.getFieldOf k
  | _, _ => .vUndefined

/-- Entries of a plain object; other values have none. -/
def objFields : Value → FieldList
  | .vObj _ f => f
  | _ => .nil

mutual

/-- Identity tags of the mutable data nodes (dates, arrays, objects, trackers)
reachable in a value.  Function identities are excluded: the ORM never reads or
mutates function contents. -/
def objTags : Value → List Nat
  | .vDate t _ => [t]
  | .vDAO t => [t]
  | .vArr t l => t :: objTagsList l
  | .vObj t f => t :: objTagsFields f
  | _ => []

def objTagsList : ValueList → List Nat
  | .nil => []
  | .cons v tl => objTags v ++ objTagsList tl

def objTagsFields : FieldList → List Nat
  | .nil => []
  | .cons _ v tl => objTags v ++ objTagsFields tl

end

mutual

/-- Mutation of the heap cell with identity `t`: the node carrying that tag is
replaced by `g` of itself (JS mutation keeps identity; `g` models an arbitrary
in-place update).  A tag that occurs nowhere mutates nothing. -/
def mutateAt (t : Nat) (g : Value → Value) : Value → Value
  | .vDate t2 m => if t2 == t then g (.vDate t2 m) else .vDate t2 m
  | .vDAO t2 => if t2 == t then g (.vDAO t2) else .vDAO t2
  | .vArr t2 l => if t2 == t then g (.vArr t2 l) else .vArr t2 (mutateAtList t g l)
  | .vObj t2 f => if t2 == t then g (.vObj t2 f) else .vObj t2 (mutateAtFields t g f)
  | v => v

def mutateAtList (t : Nat) (g : Value → Value) : ValueList → ValueList
  | .nil => .nil
  | .cons v tl => .cons (mutateAt t g v) (mutateAtList t g tl)

def mutateAtFields (t : Nat) (g : Value → Value) : FieldList → FieldList
  | .nil => .nil
  | .cons k v tl => .cons k (mutateAt t g v) (mutateAtFields t g tl)

end

/-- Translation of `getType` (src/dao.ts): the dynamic type string the diff
algorithm dispatches on.  `typeof` object values are refined to null / date /
array / object. -/
def getType (o : Value) : String :=
  match o with
  | .vNull => ("null")
  | .vDate _ _ => ("date")
  | .vArr _ _ => ("array")
  | .vDAO _ => ("object")
  | .vObj _ _ => ("object")
  | v => jsTypeof v

/-- Skip test shared by `getRealKeys`, `firstLevelObjectDifference` and
`makeCopyOfObject` (src/dao.ts): a value participates in persisted/compared
state unless it is a function or a `DataAccessObject`. -/
def isRealValue : Value → Bool
  | .vFunc _ => false
  | .vDAO _ => false
  | _ => true

/-- Keys of the entries that pass the skip test, in insertion order (the loop
body of `getRealKeys` before its final `.sort()`). -/
def realKeysUnsorted : FieldList → List String
  | .nil => []
  | .cons k v tl =>
      if isRealValue v then k :: realKeysUnsorted tl else realKeysUnsorted tl

/-- Translation of `getRealKeys` (src/dao.ts): the data keys of an object,
sorted (JS `Array.prototype.sort`, lexicographic on strings). -/
def getRealKeys (f : FieldList) : List String :=
  (realKeysUnsorted f).insertionSort (fun a b => a ≤ b)

/-- Translation of `compareArrays` (src/dao.ts): equal length and pointwise
strictly equal entries. -/
def compareArrays (a1 a2 : List String) : Bool :=
  a1.length == a2.length && (a1.zip a2).all (fun p => p.1 == p.2)

mutual

/-- Translation of `isEqualsRecursive` (src/dao.ts): deep structural equality.
Dates compare by instant, arrays positionally, objects by their sorted data-key
lists and then field by field; everything else falls back to `===`. -/
def isEqualsRecursive (o1 o2 : Value) : Bool :=
  if getType o1 == getType o2 then
    match o1, o2 with
    | .vDate _ m1, .vDate _ m2 => m1 == m2
    | .vArr _ l1, .vArr _ l2 => l1.length == l2.length && isEqualsList l1 l2
    | .vObj _ f1, .vObj _ f2 =>
        compareArrays (getRealKeys f1) (getRealKeys f2) && isEqualsFields f1 f2
    | o1, o2 => jsStrictEq o1 o2
  else false

/-- Pointwise recursive comparison of array elements (the `for` loop of the
array case of `isEqualsRecursive`). -/
def isEqualsList : ValueList → ValueList → Bool
  | .nil, _ => true
  | .cons v1 tl1, .nil => isEqualsRecursive v1 .vUndefined && isEqualsList tl1 .nil
  | .cons v1 tl1, .cons v2 tl2 => isEqualsRecursive v1 v2 && isEqualsList tl1 tl2

/-- Per-key recursive comparison of the object case of `isEqualsRecursive`:
for every data key of the first object, compare `o1[key]` with `o2[key]`.  The
iteration runs over the first object's entries, which coincides with iterating
over its keys because JS object keys are distinct. -/
def isEqualsFields : FieldList → FieldList → Bool
  | .nil, _ => true
  | .cons k v tl, f2 =>
      (if isRealValue v then isEqualsRecursive v (f2.getFieldOf k) else true)
        && isEqualsFields tl f2

end

/-- Loop body of `firstLevelObjectDifference` (src/dao.ts): keep the entries of
`changed` that pass the skip test and are not deep-equal to the corresponding
field of `original`. -/
def diffFields (original : Value) : FieldList → FieldList
  | .nil => .nil
  | .cons k v tl =>
      if isRealValue v && !(isEqualsRecursive (getField original k) v) then
        .cons k v (diffFields original tl)
      else diffFields original tl

/-- Translation of `firstLevelObjectDifference` (src/dao.ts): the first-level
diff object sent to the driver by `save`. -/
def firstLevelObjectDifference (original changed : Value) : FieldList :=
  diffFields original (objFields changed)

mutual

/-- Translation of `makeCopyOfObject` (src/dao.ts): deep copy used for the
change-tracker's `original` snapshot.  Primitives and functions are returned
as-is; dates, arrays and objects are rebuilt with fresh identity tags (the
`Nat` argument is the next free tag, threaded through and returned).  A
`DataAccessObject` reached directly (only possible as an array element, which
never occurs for entities) copies to an opaque fresh empty object: its
internals are not modelled. -/
def makeCopyOfObject : Value → Nat → Value × Nat
  | .vArr _ l, n =>
      let r := makeCopyOfList l (n + 1)
      (.vArr n r.1, r.2)
  | .vDate _ m, n => (.vDate n m, n + 1)
  | .vObj _ f, n =>
      let r := makeCopyOfFields f (n + 1)
      (.vObj n r.1, r.2)
  | .vDAO _, n => (.vObj n .nil, n + 1)
  | v, n => (v, n)

/-- Element-wise copy of the array case of `makeCopyOfObject` (every element is
copied recursively, with no skip test). -/
def makeCopyOfList : ValueList → Nat → ValueList × Nat
  | .nil, n => (.nil, n)
  | .cons v tl, n =>
      let r1 := makeCopyOfObject v n
      let r2 := makeCopyOfList tl r1.2
      (.cons r1.1 r2.1, r2.2)

/-- Field-wise copy of the object case of `makeCopyOfObject`: functions and
trackers are skipped entirely; values of `typeof` "object" are copied
recursively; all other values are copied by value. -/
def makeCopyOfFields : FieldList → Nat → FieldList × Nat
  | .nil, n => (.nil, n)
  | .cons k v tl, n =>
      if isRealValue v then
        if jsTypeof v == ("object") then
          let r1 := makeCopyOfObject v n
          let r2 := makeCopyOfFields tl r1.2
          (.cons k r1.1 r2.1, r2.2)
        else
          let r2 := makeCopyOfFields tl n
          (.cons k v r2.1, r2.2)
      else makeCopyOfFields tl n

end

/-- Boolean distinctness of a key list (JS object keys are always distinct;
this is the well-formedness side condition the object model carries). -/
def noDupKeys : List String → Bool
  | [] => true
  | k :: tl => !(tl.contains k) && noDupKeys tl

mutual

/-- Well-formedness of a value as entity state: object keys are distinct at
every level, and no tracker occurs as an array element or at the top of the
value (a tracker may only occur as a direct field value, which is where the
code skips it). -/
def wfValue : Value → Bool
  | .vDAO _ => false
  | .vArr _ l => wfList l
  | .vObj _ f => noDupKeys f.keys && wfFields f
  | _ => true

/-- Well-formedness of array elements. -/
def wfList : ValueList → Bool
  | .nil => true
  | .cons v tl => wfValue v && wfList tl

/-- Well-formedness of object entries: a tracker is allowed as a field value
(the code skips it there); anything else must be well-formed. -/
def wfFields : FieldList → Bool
  | .nil => true
  | .cons _ (.vDAO _) tl => wfFields tl
  | .cons _ v tl => wfValue v && wfFields tl

end

/-- Well-formedness of one field value: trackers allowed, otherwise `wfValue`. -/
def wfFieldValue : Value → Bool
  | .vDAO _ => true
  | v => wfValue v


/-- Tagged filter-operation tree (src/common.ts `FilterOperation`).  A regex
node stores the pattern source and the flags string of the `RegExp` the builder
constructed.  `and` / `or` children and a `not` child are stored exactly as the
builders push them (a child may be the null query). -/
inductive FilterOp where
  | cmpOp (op : String) (key : String) (value : Value)
  | existsOp (key : String) (ex : Bool)
  | inOp (key : String) (values : List Value)
  | regexOp (key : String) (pattern : String) (flags : String)
  | andOp (children : List (Option FilterOp))
  | orOp (children : List (Option FilterOp))
  | notOp (child : Option FilterOp)
deriving Repr

/-- Translation of the `DataFilter` wrapper (src/finder.ts): a built filter
holding its query tree; the empty filter holds the null query. -/
structure DataFilter where
  query : Option FilterOp
deriving Repr

/-- Translation of `DataFilter.and` (src/finder.ts): push every argument's
query as a child of an "and" node. -/
def DataFilter.and (args : List DataFilter) : DataFilter :=
  ⟨some (.andOp (args.map (fun a => a.query)))⟩

/-- Translation of `DataFilter.or` (src/finder.ts). -/
def DataFilter.or (args : List DataFilter) : DataFilter :=
  ⟨some (.orOp (args.map (fun a => a.query)))⟩

/-- Translation of `DataFilter.not` (src/finder.ts). -/
def DataFilter.not (arg : DataFilter) : DataFilter :=
  ⟨some (.notOp arg.query)⟩

/-- Translation of `DataFilter.equals` (src/finder.ts). -/
def DataFilter.equals (key : String) (value : Value) : DataFilter :=
  ⟨some (.cmpOp ("eq") key value)⟩

/-- Translation of `DataFilter.any` (src/finder.ts): the null query. -/
def DataFilter.any : DataFilter := ⟨none⟩

/-- Model of the JS `\s` regex class (ECMAScript WhiteSpace and
LineTerminator code points). -/
def isJsWhitespace (c : Char) : Bool :=
  c == '\t' || c == '\n' || c == '\x0b' || c == '\x0c' || c == '\r' || c == ' ' ||
  c == '\u00a0' || c == '\u1680' ||
  (0x2000 ≤ c.toNat && c.toNat ≤ 0x200a) ||
  c == '\u2028' || c == '\u2029' || c == '\u202f' || c == '\u205f' ||
  c == '\ufeff' || c == '\u3000'

/-- Characters of the regex character class in `escapeRegExp` (src/util.ts),
in source order: `- [ ] { } ( ) * + ? . , \ ^ $ | #`. -/
def regexSpecialChars : List Char :=
  ['-', '[', ']', '\x7b', '\x7d', '(', ')', '*', '+', '?', '.', ',', '\\', '^',
   '$', '|', '#']

/-- Translation of `escapeRegExp` (src/util.ts): every occurrence of a
character matched by the class `[-[\]{}()*+?.,\\^$|#\s]` is replaced by a
backslash followed by that character (`"\\$&"`). -/
def escapeRegExp (text : String) : String :=
  String.mk
    ((text.toList.map
        (fun c =>
          if regexSpecialChars.contains c || isJsWhitespace c then ['\\', c]
          else [c])).flatten)

/-- Translation of `DataFilter.startsWith` (src/finder.ts): anchor the escaped
literal at the start; flags are "i" exactly when `ignoreCase` is set. -/
def DataFilter.startsWith (key : String) (value : String) (ignoreCase : Bool) :
    DataFilter :=
  if ignoreCase then
    ⟨some (.regexOp key (("^") ++ escapeRegExp value) ("i"))⟩
  else
    ⟨some (.regexOp key (("^") ++ escapeRegExp value) (""))⟩

/-- Translation of `DataFilter.endsWith` (src/finder.ts): anchor the escaped
literal at the end. -/
def DataFilter.endsWith (key : String) (value : String) (ignoreCase : Bool) :
    DataFilter :=
  if ignoreCase then
    ⟨some (.regexOp key (escapeRegExp value ++ ("$")) ("i"))⟩
  else
    ⟨some (.regexOp key (escapeRegExp value ++ ("$")) (""))⟩

/-- Translation of `DataFilter.contains` (src/finder.ts): the escaped literal,
unanchored. -/
def DataFilter.contains (key : String) (value : String) (ignoreCase : Bool) :
    DataFilter :=
  if ignoreCase then
    ⟨some (.regexOp key (escapeRegExp value) ("i"))⟩
  else
    ⟨some (.regexOp key (escapeRegExp value) (""))⟩

/-- State of a `DataAccessObject` (src/dao.ts): data-source name, table name,
primary-key name (`""` models a missing primary key, the falsy case of
`!this.pk`), the deep-copied `original` snapshot, and the live `ref`. -/
structure DAOState where
  source : String
  table : String
  pk : String
  original : Value
  ref : Value
deriving Repr

/-- Translation of `DataAccessObject.changeRef` (src/dao.ts): snapshot the row
into `original` with a deep copy and alias `ref` to the row itself.  The `Nat`
is the fresh-tag counter of the copy. -/
def DataAccessObject.changeRef (st : DAOState) (row : Value) (n : Nat) :
    DAOState × Nat :=
  let r := makeCopyOfObject row n
  ({ st with original := r.1, ref := row }, r.2)

/-- One call observed at the driver boundary, recording the exact arguments
the DAO methods hand to the resolved driver. -/
inductive DriverCall where
  | findByKeyCall (table : String) (keyName : String) (keyValue : Value)
  | updateCall (table : String) (keyName : String) (keyValue : Value)
      (updated : FieldList)
  | updateManyCall (table : String) (filter : Option FilterOp)
      (updated : FieldList)
  | insertCall (table : String) (row : Value) (key : String)
deriving Repr

/-- Error raised by `DataAccessObject.save` (src/dao.ts): the local missing
primary-key error or a propagated driver error. -/
inductive SaveError (ε : Type) where
  | noPrimaryKey
  | driver (e : ε)

/-- Result of a `save` call: the returned promise (true / false / rejected),
the tracker state afterwards, the fresh-tag counter and the driver calls made. -/
structure SaveOutcome (ε : Type) where
  result : Except (SaveError ε) Bool
  state : DAOState
  nextTag : Nat
  calls : List DriverCall

/-- Translation of `DataAccessObject.save` (src/dao.ts).  The two driver entry
points it may use are passed explicitly: `drvUpdateMany table filter updated`
returns the affected-row count of a conditional multi-row update and
`drvUpdate table keyName keyValue updated` performs the single-row update; an
`Except.error` models the driver call rejecting.  Condition present: the
filter is primary key equals the current `ref` value of the key, AND the
condition; `original` is reset (deep copy of `ref`) only when at least one row
was affected.  Condition absent: single-row update keyed by the `original`
value of the primary key; `original` is always reset on success. -/
def DataAccessObject.save {ε : Type} (st : DAOState) (n : Nat)
    (drvUpdateMany : String → Option FilterOp → FieldList → Except ε Nat)
    (drvUpdate : String → String → Value → FieldList → Except ε Unit)
    (cond : Option DataFilter) : SaveOutcome ε :=
  if st.pk == "" then ⟨.error .noPrimaryKey, st, n, []⟩
  else
    let diff := firstLevelObjectDifference st.original st.ref
    if diff.length == 0 then ⟨.ok false, st, n, []⟩
    else
      match cond with
      | some c =>
          let filter :=
            (DataFilter.and [DataFilter.equals st.pk (getField st.ref st.pk), c]).query
          match drvUpdateMany st.table filter diff with
          | .error e =>
              ⟨.error (.driver e), st, n, [.updateManyCall st.table filter diff]⟩
          | .ok affected =>
              if 0 < affected then
                let r := makeCopyOfObject st.ref n
                ⟨.ok true, { st with original := r.1 }, r.2,
                  [.updateManyCall st.table filter diff]⟩
              else
                ⟨.ok false, st, n, [.updateManyCall st.table filter diff]⟩
      | none =>
          match drvUpdate st.table st.pk (getField st.original st.pk) diff with
          | .error e =>
              ⟨.error (.driver e), st, n,
                [.updateCall st.table st.pk (getField st.original st.pk) diff]⟩
          | .ok _ =>
              let r := makeCopyOfObject st.ref n
              ⟨.ok true, { st with original := r.1 }, r.2,
                [.updateCall st.table st.pk (getField st.original st.pk) diff]⟩

/-- Property write `o[k] = v` on a plain object: overwrite the existing entry
in place, or append a new one, as JS assignment does. -/
def setFields : FieldList → String → Value → FieldList
  | .nil, k, v => .cons k v .nil
  | .cons k2 v2 tl, k, v =>
      if k2 == k then .cons k v tl else .cons k2 v2 (setFields tl k v)

/-- Property write on a value (only objects carry fields). -/
def setField : Value → String → Value → Value
  | .vObj t f, k, v => .vObj t (setFields f k v)
  | o, _, _ => o

/-- Result of an `insert` call: the returned promise, the tracker state
afterwards, the fresh-tag counter and the driver calls made. -/
structure InsertOutcome (ε : Type) where
  result : Except ε Unit
  state : DAOState
  nextTag : Nat
  calls : List DriverCall

/-- Translation of `DataAccessObject.insert` (src/dao.ts).  The driver insert
receives a deep copy of `ref` and the primary-key name; its outcome is a pair:
an optional generated key it passed to the callback (which writes it into
`ref[pk]` before the call resolves or rejects) and an optional error.  On
success `original` is reset to a deep copy of the (possibly key-updated) `ref`;
on rejection the error propagates and `original` stays untouched. -/
def DataAccessObject.insert {ε : Type} (st : DAOState) (n : Nat)
    (drvInsert : String → Value → String → Option Value × Option ε) :
    InsertOutcome ε :=
  let rc := makeCopyOfObject st.ref n
  let out := drvInsert st.table rc.1 st.pk
  let ref2 :=
    match out.1 with
    | some keyVal => setField st.ref st.pk keyVal
    | none => st.ref
  match out.2 with
  | some e =>
      ⟨.error e, { st with ref := ref2 }, rc.2, [.insertCall st.table rc.1 st.pk]⟩
  | none =>
      let oc := makeCopyOfObject ref2 rc.2
      ⟨.ok (), { st with ref := ref2, original := oc.1 }, oc.2,
        [.insertCall st.table rc.1 st.pk]⟩

/-- Translation of the static `DataAccessObject.findByKey` (src/dao.ts): a
null or undefined key value short-circuits to null before the driver is
resolved; otherwise the driver's `findByKey` is called.  The driver returns
the row or null; rejection propagates.  The second component lists the driver
calls made. -/
def DataAccessObject.findByKey {ε : Type}
    (drvFindByKey : String → String → Value → Except ε Value)
    (table : String) (keyName : String) (keyValue : Value) :
    Except ε Value × List DriverCall :=
  match keyValue with
  | .vNull => (.ok .vNull, [])
  | .vUndefined => (.ok .vNull, [])
  | _ => (drvFindByKey table keyName keyValue,
          [.findByKeyCall table keyName keyValue])

/-- Binding of a `DataFinder` (src/finder.ts): source, table, primary-key name
and the row deserializer. -/
structure DataFinder where
  source : String
  table : String
  key : String
  dataParse : Value → Value

/-- Translation of `DataFinder.findByKey` (src/finder.ts): forward to the
static `DataAccessObject.findByKey`; a truthy row is deserialized, a falsy row
(no data) yields null, never an error; driver rejection propagates. -/
def DataFinder.findByKey {ε : Type} (fin : DataFinder)
    (drvFindByKey : String → String → Value → Except ε Value)
    (keyValue : Value) : Except ε (Option Value) × List DriverCall :=
  let r := DataAccessObject.findByKey drvFindByKey fin.table fin.key keyValue
  match r.1 with
  | .error e => (.error e, r.2)
  | .ok data =>
      if jsTruthy data then (.ok (some (fin.dataParse data)), r.2)
      else (.ok none, r.2)

/-- Translation of `DataModel._hasChanged` (src/bean.ts): strict `!==`
comparison of the original snapshot's field against the live field. -/
def DataModel.hasChangedProp (st : DAOState) (prop : String) : Bool :=
  !(jsStrictEq (getField st.original prop) (getField st.ref prop))

/-- Abstract JS runtime primitives that `enforceType` (src/common.ts) delegates
to.  `jsonParse` models `JSON.parse` (`none` models a thrown SyntaxError);
`newDateFrom` models `new Date(x)` for a string or number; `toNumber` models
`Number(x)`; `mathFloor` models `Math.floor(x)`; `toStr` models string
coercion `"" + x`; `bigIntFrom` models `BigInt(s)` (`none` models a throw).
These are the spec's "simple, non-algorithmic utility conversions"; the
claims under verification depend only on the concrete control flow around
them. -/
structure JsRuntime where
  jsonParse : String → Option Value
  newDateFrom : Value → Value
  toNumber : Value → Value
  mathFloor : Value → Value
  toStr : Value → String
  bigIntFrom : String → Option Value

/-- First character test `value.charAt(0) === "~"` of `enforceType`. -/
def headIsTilde (s : String) : Bool :=
  match s.toList with
  | c :: _ => c == '~'
  | [] => false

/-- JSON text of the payload: `value.substr(1)` when the `~` prefix is
present, the whole string otherwise. -/
def tildePayload (s : String) : String :=
  if headIsTilde s then s.drop 1 else s

/-- Translation of `enforceType` (src/common.ts).  A null or undefined input
yields null for every target type.  For target "object"/"array", a value of
the right runtime type passes through; a non-empty string is treated as JSON
text, with a leading `~` stripped before parsing; a parse failure (or, for
"array", a parse result that is not an array) falls back to an empty object
resp. empty array (allocated with tag `n`); any other input yields the same
fallback.  The remaining targets delegate to the runtime coercions; only
`BigInt` can throw, which the `Except` error models. -/
def enforceType (rt : JsRuntime) (n : Nat) (value : Value) (ty : String) :
    Except Unit Value :=
  match value with
  | .vUndefined => .ok .vNull
  | .vNull => .ok .vNull
  | _ =>
    if ty == ("string") then .ok (.vStr (rt.toStr value))
    else if ty == ("number") then .ok (rt.toNumber value)
    else if ty == ("boolean") then .ok (.vBool (jsTruthy value))
    else if ty == ("int") then .ok (rt.mathFloor (rt.toNumber value))
    else if ty == ("bigint") then
      match rt.bigIntFrom (rt.toStr value) with
      | some b => .ok b
      | none => .error ()
    else if ty == ("date") then
      match value with
      | .vDate t m => .ok (.vDate t m)
      | .vStr s => .ok (rt.newDateFrom (.vStr s))
      | .vNum m => .ok (rt.newDateFrom (.vNum m))
      | _ => .ok .vNull
    else if ty == ("object") then
      if jsTypeof value == ("object") then .ok value
      else
        match value with
        | .vStr s =>
            if 0 < s.length then
              match rt.jsonParse (tildePayload s) with
              | some v => .ok v
              | none => .ok (.vObj n .nil)
            else .ok (.vObj n .nil)
        | _ => .ok (.vObj n .nil)
    else if ty == ("array") then
      match value with
      | .vArr t l => .ok (.vArr t l)
      | .vStr s =>
          if 0 < s.length then
            match rt.jsonParse (tildePayload s) with
            | some (.vArr t l) => .ok (.vArr t l)
            | some _ => .ok (.vArr n .nil)
            | none => .ok (.vArr n .nil)
          else .ok (.vArr n .nil)
      | _ => .ok (.vArr n .nil)
    else .ok .vNull

/-- Values compared by `===` in the default branch of the diff algorithm:
everything that is not a date, an array or a plain object (the specification's
"scalars", plus functions, which only ever compare by identity). -/
def isPrimitiveLike : Value → Bool
  | .vDate _ _ => false
  | .vArr _ _ => false
  | .vObj _ _ => false
  | .vDAO _ => false
  | _ => true

/-- Deep structural equality as the specification words it: scalars by value,
dates by instant, arrays positionally, objects by unordered sets of their data
keys and field-wise equality on them (function-valued fields and trackers are
never part of compared state, per the spec's deep-copy rule). -/
inductive DeepEq : Value → Value → Prop where
  | prim {o1 o2 : Value} (h1 : isPrimitiveLike o1 = true)
      (h2 : isPrimitiveLike o2 = true) (h : jsStrictEq o1 o2 = true) :
      DeepEq o1 o2
  | date {t1 t2 : Nat} {m : Int} : DeepEq (.vDate t1 m) (.vDate t2 m)
  | arr {t1 t2 : Nat} {l1 l2 : ValueList} (hlen : l1.length = l2.length)
      (h : ∀ i, i < l1.length → DeepEq (l1.get i) (l2.get i)) :
      DeepEq (.vArr t1 l1) (.vArr t2 l2)
  | obj {t1 t2 : Nat} {f1 f2 : FieldList}
      (hkeys : ∀ k, k ∈ realKeysUnsorted f1 ↔ k ∈ realKeysUnsorted f2)
      (h : ∀ k, k ∈ realKeysUnsorted f1 →
        DeepEq (f1.getFieldOf k) (f2.getFieldOf k)) :
      DeepEq (.vObj t1 f1) (.vObj t2 f2)

lemma wfFields_cons (k : String) (v : Value) (tl : FieldList) :
    wfFields (.cons k v tl) = (wfFieldValue v && wfFields tl) := by
  cases v <;> rfl

/-- Induction along the spine of a field list (the mutual recursor of the
value family specialized to entry-wise induction). -/
@[induction_eliminator]
theorem FieldList.entryInduction {motive : FieldList → Prop} (nil : motive .nil)
    (cons : ∀ k v tl, motive tl → motive (.cons k v tl)) : ∀ f, motive f
  | .nil => nil
  | .cons k v tl => cons k v tl (FieldList.entryInduction nil cons tl)

/-- Induction along the spine of a value list. -/
@[induction_eliminator]
theorem ValueList.elemInduction {motive : ValueList → Prop} (nil : motive .nil)
    (cons : ∀ v tl, motive tl → motive (.cons v tl)) : ∀ l, motive l
  | .nil => nil
  | .cons v tl => cons v tl (ValueList.elemInduction nil cons tl)

lemma compareArrays_eq_true_iff : ∀ a1 a2 : List String,
    compareArrays a1 a2 = true ↔ a1 = a2 := by
  intro a1
  induction a1 with
  | nil =>
      intro a2
      cases a2 <;> simp [compareArrays]
  | cons x tl ih =>
      intro a2
      cases a2 with
      | nil => simp [compareArrays]
      | cons y tl2 =>
          have h2 := ih tl2
          simp only [compareArrays] at h2 ⊢
          simp only [List.length_cons, List.zip_cons_cons, List.all_cons,
            Bool.and_eq_true, beq_iff_eq] at h2 ⊢
          constructor
          · rintro ⟨hlen, hx, hall⟩
            have htl : tl = tl2 := h2.mp ⟨by omega, hall⟩
            simp [hx, htl]
          · intro h
            injection h with hx htl
            have := h2.mpr htl
            exact ⟨by omega, hx, this.2⟩

lemma compareArrays_self (a : List String) : compareArrays a a = true :=
  (compareArrays_eq_true_iff a a).mpr rfl

lemma noDupKeys_iff_nodup : ∀ l : List String, noDupKeys l = true ↔ l.Nodup := by
  intro l
  induction l with
  | nil => simp [noDupKeys]
  | cons x tl ih =>
      simp [noDupKeys, ih, List.nodup_cons]

lemma realKeysUnsorted_sublist_keys : ∀ f : FieldList,
    (realKeysUnsorted f).Sublist f.keys := by
  intro f
  induction f with
  | nil => simp [realKeysUnsorted, FieldList.keys]
  | cons k v tl ih =>
      simp only [realKeysUnsorted, FieldList.keys]
      by_cases h : isRealValue v = true
      · simp only [h, if_true]
        exact List.Sublist.cons₂ k ih
      · simp only [Bool.eq_false_iff.mpr h, if_false]
        exact List.Sublist.cons k ih

lemma getRealKeys_eq_iff_same_members {f1 f2 : FieldList}
    (h1 : (realKeysUnsorted f1).Nodup) (h2 : (realKeysUnsorted f2).Nodup) :
    getRealKeys f1 = getRealKeys f2 ↔
      ∀ k, k ∈ realKeysUnsorted f1 ↔ k ∈ realKeysUnsorted f2 := by
  have p1 : List.Perm
      (List.insertionSort (fun a b : String => a ≤ b) (realKeysUnsorted f1))
      (realKeysUnsorted f1) := List.perm_insertionSort _ _
  have p2 : List.Perm
      (List.insertionSort (fun a b : String => a ≤ b) (realKeysUnsorted f2))
      (realKeysUnsorted f2) := List.perm_insertionSort _ _
  constructor
  · intro heq k
    have heq2 : List.insertionSort (fun a b : String => a ≤ b) (realKeysUnsorted f1)
        = List.insertionSort (fun a b : String => a ≤ b) (realKeysUnsorted f2) := heq
    rw [← heq2] at p2
    exact (p1.symm.trans p2).mem_iff
  · intro hmem
    have hperm : List.Perm (realKeysUnsorted f1) (realKeysUnsorted f2) :=
      (List.perm_ext_iff_of_nodup h1 h2).mpr hmem
    show List.insertionSort (fun a b : String => a ≤ b) (realKeysUnsorted f1)
        = List.insertionSort (fun a b : String => a ≤ b) (realKeysUnsorted f2)
    exact List.eq_of_perm_of_sorted (p1.trans (hperm.trans p2.symm))
      (List.sorted_insertionSort _ _) (List.sorted_insertionSort _ _)

lemma mem_realKeysUnsorted_iff : ∀ (f : FieldList) (k : String),
    k ∈ realKeysUnsorted f ↔ ∃ v, (k, v) ∈ f.toList ∧ isRealValue v = true := by
  intro f
  induction f with
  | nil => simp [realKeysUnsorted, FieldList.toList]
  | cons k2 v2 tl ih =>
      intro k
      simp only [realKeysUnsorted, FieldList.toList]
      by_cases h : isRealValue v2 = true
      · simp only [h, if_true, List.mem_cons]
        constructor
        · rintro (rfl | hk)
          · exact ⟨v2, Or.inl rfl, h⟩
          · obtain ⟨v, hv, hr⟩ := (ih k).mp hk
            exact ⟨v, Or.inr hv, hr⟩
        · rintro ⟨v, (heq | hv), hr⟩
          · exact Or.inl (Prod.ext_iff.mp heq).1
          · exact Or.inr ((ih k).mpr ⟨v, hv, hr⟩)
      · simp only [Bool.eq_false_iff.mpr h, if_false]
        constructor
        · intro hk
          obtain ⟨v, hv, hr⟩ := (ih k).mp hk
          exact ⟨v, List.mem_cons_of_mem _ hv, hr⟩
        · rintro ⟨v, hv, hr⟩
          rcases List.mem_cons.mp hv with heq | hv2
          · exfalso
            apply h
            have hveq : v = v2 := congrArg Prod.snd heq
            exact hveq ▸ hr
          · exact (ih k).mpr ⟨v, hv2, hr⟩

lemma mem_keys_of_mem_toList : ∀ (f : FieldList) (k : String) (v : Value),
    (k, v) ∈ f.toList → k ∈ f.keys := by
  intro f
  induction f with
  | nil => simp [FieldList.toList]
  | cons k2 v2 tl ih =>
      intro k v hmem
      simp only [FieldList.toList, List.mem_cons] at hmem
      simp only [FieldList.keys, List.mem_cons]
      rcases hmem with heq | hmem
      · exact Or.inl (Prod.ext_iff.mp heq).1
      · exact Or.inr (ih k v hmem)

lemma getFieldOf_eq_of_mem : ∀ (f : FieldList) (k : String) (v : Value),
    noDupKeys f.keys = true → (k, v) ∈ f.toList → f.getFieldOf k = v := by
  intro f
  induction f with
  | nil => simp [FieldList.toList]
  | cons k2 v2 tl ih =>
      intro k v hnd hmem
      simp only [FieldList.keys, noDupKeys, Bool.and_eq_true, Bool.not_eq_true'] at hnd
      simp only [FieldList.toList, List.mem_cons] at hmem
      simp only [FieldList.getFieldOf]
      rcases hmem with heq | hmem
      · have hk : k = k2 := congrArg Prod.fst heq
        have hv : v = v2 := congrArg Prod.snd heq
        rw [if_pos (by simp [hk])]
        exact hv.symm
      · by_cases hkk : k2 = k
        · exfalso
          have hink : k ∈ tl.keys := mem_keys_of_mem_toList tl k v hmem
          have hcont := hnd.1
          rw [hkk] at hcont
          simp at hcont
          exact hcont hink
        · rw [if_neg (by simpa using hkk)]
          exact ih k v hnd.2 hmem

lemma jsStrictEq_getType {o1 o2 : Value} (h : jsStrictEq o1 o2 = true) :
    getType o1 = getType o2 := by
  cases o1 <;> cases o2 <;> simp_all [jsStrictEq, getType, jsTypeof]

lemma deepEq_getType {o1 o2 : Value} (h : DeepEq o1 o2) :
    getType o1 = getType o2 := by
  cases h with
  | prim h1 h2 h => exact jsStrictEq_getType h
  | date => rfl
  | arr hlen h => rfl
  | obj hkeys h => rfl

lemma isEquals_false_of_getType_ne {o1 o2 : Value}
    (h : getType o1 ≠ getType o2) : isEqualsRecursive o1 o2 = false := by
  rw [isEqualsRecursive.eq_def, if_neg]
  intro hc
  exact h (by simpa using hc)

lemma isEqualsList_iff_pointwise : ∀ l1 l2 : ValueList,
    l1.length = l2.length →
    (isEqualsList l1 l2 = true ↔
      ∀ i, i < l1.length → isEqualsRecursive (l1.get i) (l2.get i) = true) := by
  intro l1
  induction l1 with
  | nil =>
      intro l2 hlen
      simp [isEqualsList, ValueList.length]
  | cons v tl ih =>
      intro l2 hlen
      cases l2 with
      | nil => simp [ValueList.length] at hlen
      | cons v2 tl2 =>
          simp only [ValueList.length] at hlen
          have hlen2 : tl.length = tl2.length := by omega
          simp only [isEqualsList, Bool.and_eq_true, ih tl2 hlen2]
          constructor
          · rintro ⟨hv, htl⟩ i hi
            cases i with
            | zero => exact hv
            | succ j =>
                simp only [ValueList.get]
                apply htl j
                simp only [ValueList.length] at hi
                omega
          · intro h
            constructor
            · have h0 := h 0 (by simp only [ValueList.length]; omega)
              simpa [ValueList.get] using h0
            · intro j hj
              have hs := h (j + 1) (by simp only [ValueList.length]; omega)
              simpa [ValueList.get] using hs

lemma isEqualsFields_iff : ∀ f1 f2 : FieldList,
    isEqualsFields f1 f2 = true ↔
      ∀ k v, (k, v) ∈ f1.toList → isRealValue v = true →
        isEqualsRecursive v (f2.getFieldOf k) = true := by
  intro f1
  induction f1 with
  | nil =>
      intro f2
      simp [isEqualsFields, FieldList.toList]
  | cons k2 v2 tl ih =>
      intro f2
      simp only [isEqualsFields, Bool.and_eq_true, ih f2, FieldList.toList]
      constructor
      · rintro ⟨hhead, htail⟩ k v hmem hreal
        rcases List.mem_cons.mp hmem with heq | hmem2
        · have hk : k = k2 := congrArg Prod.fst heq
          have hv : v = v2 := congrArg Prod.snd heq
          subst hk
          subst hv
          rw [if_pos hreal] at hhead
          exact hhead
        · exact htail k v hmem2 hreal
      · intro h
        constructor
        · by_cases hreal : isRealValue v2 = true
          · rw [if_pos hreal]
            exact h k2 v2 (List.mem_cons_self _ _) hreal
          · rw [if_neg hreal]
        · intro k v hmem hreal
          exact h k v (List.mem_cons_of_mem _ hmem) hreal

lemma isPrimitiveLike_vDate (t : Nat) (m : Int) :
    isPrimitiveLike (.vDate t m) = false := rfl

lemma isPrimitiveLike_vArr (t : Nat) (l : ValueList) :
    isPrimitiveLike (.vArr t l) = false := rfl

lemma isPrimitiveLike_vObj (t : Nat) (f : FieldList) :
    isPrimitiveLike (.vObj t f) = false := rfl

lemma isPrimitiveLike_vDAO (t : Nat) : isPrimitiveLike (.vDAO t) = false := rfl

lemma isEquals_date_date (t1 t2 : Nat) (m1 m2 : Int) :
    isEqualsRecursive (.vDate t1 m1) (.vDate t2 m2) = (m1 == m2) := rfl

lemma isEquals_arr_arr (t1 t2 : Nat) (l1 l2 : ValueList) :
    isEqualsRecursive (.vArr t1 l1) (.vArr t2 l2) =
      (l1.length == l2.length && isEqualsList l1 l2) := rfl

lemma isEquals_obj_obj (t1 t2 : Nat) (f1 f2 : FieldList) :
    isEqualsRecursive (.vObj t1 f1) (.vObj t2 f2) =
      (compareArrays (getRealKeys f1) (getRealKeys f2) && isEqualsFields f1 f2) :=
  rfl

lemma isEquals_dao_obj (t1 t2 : Nat) (f2 : FieldList) :
    isEqualsRecursive (.vDAO t1) (.vObj t2 f2) = false := rfl

lemma wfValue_vDAO (t : Nat) : wfValue (.vDAO t) = false := rfl

lemma wfValue_vArr (t : Nat) (l : ValueList) : wfValue (.vArr t l) = wfList l :=
  rfl

lemma wfValue_vObj (t : Nat) (f : FieldList) :
    wfValue (.vObj t f) = (noDupKeys f.keys && wfFields f) := rfl

lemma wfFieldValue_of_wfValue {v : Value} (h : wfValue v = true) :
    wfFieldValue v = true := by
  cases v <;> first | rfl | exact h

lemma wfValue_of_wfFieldValue_real {v : Value} (h : wfFieldValue v = true)
    (hr : isRealValue v = true) : wfValue v = true := by
  cases v <;> first | rfl | exact h | exact absurd hr (by simp [isRealValue])

lemma wfFields_mem : ∀ (f : FieldList) (k : String) (v : Value),
    wfFields f = true → (k, v) ∈ f.toList → wfFieldValue v = true := by
  intro f
  induction f with
  | nil => simp [FieldList.toList]
  | cons k2 v2 tl ih =>
      intro k v hwf hmem
      have hwf2 : wfFieldValue v2 = true ∧ wfFields tl = true := by
        rw [wfFields_cons] at hwf
        simpa using hwf
      rcases List.mem_cons.mp hmem with heq | hmem2
      · have hv : v = v2 := congrArg Prod.snd heq
        rw [hv]
        exact hwf2.1
      · exact ih k v hwf2.2 hmem2

lemma wfList_get : ∀ (l : ValueList) (i : Nat),
    wfList l = true → i < l.length → wfValue (l.get i) = true := by
  intro l
  induction l with
  | nil => intro i _ hi; simp [ValueList.length] at hi
  | cons v tl ih =>
      intro i hwf hi
      have hwf2 : wfValue v = true ∧ wfList tl = true := by
        have h : wfList (.cons v tl) = (wfValue v && wfList tl) := rfl
        rw [h] at hwf
        simpa using hwf
      cases i with
      | zero => exact hwf2.1
      | succ j =>
          simp only [ValueList.get]
          apply ih j hwf2.2
          simp only [ValueList.length] at hi
          omega

lemma realKeys_nodup_of_parts {f : FieldList} (h : noDupKeys f.keys = true) :
    (realKeysUnsorted f).Nodup :=
  List.Nodup.sublist (realKeysUnsorted_sublist_keys f)
    ((noDupKeys_iff_nodup f.keys).mp h)

lemma val_sizeOf_pos : ∀ v : Value, 0 < sizeOf v := by
  intro v
  cases v <;> simp

lemma sizeOf_mem_fields : ∀ (f : FieldList) (k : String) (v : Value),
    (k, v) ∈ f.toList → sizeOf v < sizeOf f := by
  intro f
  induction f with
  | nil => simp [FieldList.toList]
  | cons k2 v2 tl ih =>
      intro k v hmem
      rcases List.mem_cons.mp hmem with heq | hmem2
      · have hv : v = v2 := congrArg Prod.snd heq
        subst hv
        simp
        omega
      · have := ih k v hmem2
        simp
        omega

lemma sizeOf_get_list : ∀ (l : ValueList) (i : Nat),
    i < l.length → sizeOf (l.get i) < sizeOf l := by
  intro l
  induction l with
  | nil => intro i hi; simp [ValueList.length] at hi
  | cons v tl ih =>
      intro i hi
      cases i with
      | zero =>
          simp only [ValueList.get]
          simp
          omega
      | succ j =>
          simp only [ValueList.get]
          have : sizeOf (tl.get j) < sizeOf tl := by
            apply ih
            simp only [ValueList.length] at hi
            omega
          simp
          omega

@[simp] lemma getType_vNull : getType .vNull = ("null") := rfl

@[simp] lemma getType_vUndef : getType .vUndefined = ("undefined") := rfl

@[simp] lemma getType_vBool (b : Bool) : getType (.vBool b) = ("boolean") := rfl

@[simp] lemma getType_vNum (n : Int) : getType (.vNum n) = ("number") := rfl

@[simp] lemma getType_vStr (s : String) : getType (.vStr s) = ("string") := rfl

@[simp] lemma getType_vDate (t : Nat) (m : Int) :
    getType (.vDate t m) = ("date") := rfl

@[simp] lemma getType_vFunc (t : Nat) : getType (.vFunc t) = ("function") := rfl

@[simp] lemma getType_vDAO (t : Nat) : getType (.vDAO t) = ("object") := rfl

@[simp] lemma getType_vArr (t : Nat) (l : ValueList) :
    getType (.vArr t l) = ("array") := rfl

@[simp] lemma getType_vObj (t : Nat) (f : FieldList) :
    getType (.vObj t f) = ("object") := rfl

lemma isEquals_prim {o1 o2 : Value} (h1 : isPrimitiveLike o1 = true)
    (h2 : isPrimitiveLike o2 = true) :
    isEqualsRecursive o1 o2 = jsStrictEq o1 o2 := by
  cases o1 <;> cases o2 <;> first
    | rfl
    | exact absurd h1 (by simp [isPrimitiveLike_vDate, isPrimitiveLike_vArr,
        isPrimitiveLike_vObj, isPrimitiveLike_vDAO])

lemma isEquals_iff_deepEq_bounded : ∀ N : Nat, ∀ o1 o2 : Value, sizeOf o1 ≤ N →
    wfFieldValue o1 = true → wfValue o2 = true →
    (isEqualsRecursive o1 o2 = true ↔ DeepEq o1 o2) := by
  intro N
  induction N with
  | zero =>
      intro o1 o2 hs _ _
      exact absurd hs (by have := val_sizeOf_pos o1; omega)
  | succ N ih =>
      intro o1 o2 hs h1 h2
      by_cases hty : getType o1 = getType o2
      case neg =>
        rw [isEquals_false_of_getType_ne hty]
        simp only [Bool.false_eq_true, false_iff]
        intro hD
        exact hty (deepEq_getType hD)
      case pos =>
        by_cases hp1 : isPrimitiveLike o1 = true
        · by_cases hp2 : isPrimitiveLike o2 = true
          · rw [isEquals_prim hp1 hp2]
            constructor
            · exact fun h => DeepEq.prim hp1 hp2 h
            · intro hD
              cases hD with
              | prim a b c => exact c
              | date => simp [isPrimitiveLike_vDate] at hp1
              | arr a b => simp [isPrimitiveLike_vArr] at hp1
              | obj a b => simp [isPrimitiveLike_vObj] at hp1
          · exfalso
            cases o1 <;> cases o2 <;> first
              | simp [isPrimitiveLike_vDate, isPrimitiveLike_vArr,
                  isPrimitiveLike_vObj, isPrimitiveLike_vDAO] at hp1
              | exact hp2 (by rfl)
              | exact absurd hty (by simp)
        · cases o1 with
          | vNull => exact absurd rfl hp1
          | vUndefined => exact absurd rfl hp1
          | vBool b => exact absurd rfl hp1
          | vNum m => exact absurd rfl hp1
          | vStr s => exact absurd rfl hp1
          | vFunc t => exact absurd rfl hp1
          | vDate t1 m1 =>
              cases o2 with
              | vDate t2 m2 =>
                  rw [isEquals_date_date]
                  constructor
                  · intro h
                    have hm : m1 = m2 := by simpa using h
                    rw [hm]
                    exact DeepEq.date
                  · intro hD
                    cases hD with
                    | prim a b c => simp [isPrimitiveLike_vDate] at a
                    | date => simp
              | vNull => exact absurd hty (by simp)
              | vUndefined => exact absurd hty (by simp)
              | vBool b => exact absurd hty (by simp)
              | vNum m => exact absurd hty (by simp)
              | vStr s => exact absurd hty (by simp)
              | vFunc t => exact absurd hty (by simp)
              | vDAO t => exact absurd hty (by simp)
              | vArr t l => exact absurd hty (by simp)
              | vObj t f => exact absurd hty (by simp)
          | vDAO t1 =>
              cases o2 with
              | vObj t2 f2 =>
                  rw [isEquals_dao_obj]
                  constructor
                  · intro h
                    exact absurd h (by simp)
                  · intro hD
                    cases hD with
                    | prim a b c => simp [isPrimitiveLike_vDAO] at a
              | vDAO t2 =>
                  rw [wfValue_vDAO] at h2
                  exact absurd h2 (by simp)
              | vNull => exact absurd hty (by simp)
              | vUndefined => exact absurd hty (by simp)
              | vBool b => exact absurd hty (by simp)
              | vNum m => exact absurd hty (by simp)
              | vStr s => exact absurd hty (by simp)
              | vFunc t => exact absurd hty (by simp)
              | vDate t m => exact absurd hty (by simp)
              | vArr t l => exact absurd hty (by simp)
          | vArr t1 l1 =>
              cases o2 with
              | vArr t2 l2 =>
                  rw [isEquals_arr_arr]
                  have hw1 : wfList l1 = true := by
                    rw [show wfFieldValue (Value.vArr t1 l1) = wfList l1 from rfl] at h1
                    exact h1
                  have hw2 : wfList l2 = true := by
                    rw [wfValue_vArr] at h2
                    exact h2
                  have hsl : sizeOf l1 + 1 ≤ N + 1 := by
                    simp at hs
                    omega
                  constructor
                  · intro h
                    obtain ⟨hlenB, hlist⟩ := by simpa using h
                    have hlen : l1.length = l2.length := by simpa using hlenB
                    refine DeepEq.arr hlen ?_
                    intro i hi
                    have hpt := (isEqualsList_iff_pointwise l1 l2 hlen).mp hlist i hi
                    have hi2 : i < l2.length := hlen ▸ hi
                    refine (ih (l1.get i) (l2.get i) ?_
                      (wfFieldValue_of_wfValue (wfList_get l1 i hw1 hi))
                      (wfList_get l2 i hw2 hi2)).mp hpt
                    have := sizeOf_get_list l1 i hi
                    omega
                  · intro hD
                    cases hD with
                    | prim a b c => simp [isPrimitiveLike_vArr] at a
                    | arr hlen hpt =>
                        rw [Bool.and_eq_true]
                        refine ⟨by simpa using hlen, ?_⟩
                        refine (isEqualsList_iff_pointwise l1 l2 hlen).mpr ?_
                        intro i hi
                        have hi2 : i < l2.length := hlen ▸ hi
                        refine (ih (l1.get i) (l2.get i) ?_
                          (wfFieldValue_of_wfValue (wfList_get l1 i hw1 hi))
                          (wfList_get l2 i hw2 hi2)).mpr (hpt i hi)
                        have := sizeOf_get_list l1 i hi
                        omega
              | vNull => exact absurd hty (by simp)
              | vUndefined => exact absurd hty (by simp)
              | vBool b => exact absurd hty (by simp)
              | vNum m => exact absurd hty (by simp)
              | vStr s => exact absurd hty (by simp)
              | vFunc t => exact absurd hty (by simp)
              | vDAO t => exact absurd hty (by simp)
              | vDate t m => exact absurd hty (by simp)
              | vObj t f => exact absurd hty (by simp)
          | vObj t1 f1 =>
              cases o2 with
              | vObj t2 f2 =>
                  rw [isEquals_obj_obj]
                  have hw1 : noDupKeys f1.keys = true ∧ wfFields f1 = true := by
                    rw [show wfFieldValue (Value.vObj t1 f1)
                      = (noDupKeys f1.keys && wfFields f1) from rfl] at h1
                    simpa using h1
                  have hw2 : noDupKeys f2.keys = true ∧ wfFields f2 = true := by
                    rw [wfValue_vObj] at h2
                    simpa using h2
                  have nd1 : (realKeysUnsorted f1).Nodup :=
                    realKeys_nodup_of_parts hw1.1
                  have nd2 : (realKeysUnsorted f2).Nodup :=
                    realKeys_nodup_of_parts hw2.1
                  have hsz : sizeOf f1 + 1 ≤ N + 1 := by
                    simp at hs
                    omega
                  constructor
                  · intro h
                    obtain ⟨hcmp, hflds⟩ := by simpa using h
                    have hkeq : getRealKeys f1 = getRealKeys f2 :=
                      (compareArrays_eq_true_iff _ _).mp hcmp
                    have hmem : ∀ k, k ∈ realKeysUnsorted f1 ↔ k ∈ realKeysUnsorted f2 :=
                      (getRealKeys_eq_iff_same_members nd1 nd2).mp hkeq
                    refine DeepEq.obj hmem ?_
                    intro k hk
                    obtain ⟨v, hvmem, hvreal⟩ := (mem_realKeysUnsorted_iff f1 k).mp hk
                    have hget1 : f1.getFieldOf k = v :=
                      getFieldOf_eq_of_mem f1 k v hw1.1 hvmem
                    obtain ⟨v2, hv2mem, hv2real⟩ :=
                      (mem_realKeysUnsorted_iff f2 k).mp ((hmem k).mp hk)
                    have hget2 : f2.getFieldOf k = v2 :=
                      getFieldOf_eq_of_mem f2 k v2 hw2.1 hv2mem
                    have hfv := (isEqualsFields_iff f1 f2).mp hflds k v hvmem hvreal
                    rw [hget1, hget2]
                    rw [hget2] at hfv
                    refine (ih v v2 ?_ (wfFields_mem f1 k v hw1.2 hvmem)
                      (wfValue_of_wfFieldValue_real
                        (wfFields_mem f2 k v2 hw2.2 hv2mem) hv2real)).mp hfv
                    have := sizeOf_mem_fields f1 k v hvmem
                    omega
                  · intro hD
                    cases hD with
                    | prim a b c => simp [isPrimitiveLike_vObj] at a
                    | obj hkeys hvals =>
                        rw [Bool.and_eq_true]
                        refine ⟨?_, ?_⟩
                        · exact (compareArrays_eq_true_iff _ _).mpr
                            ((getRealKeys_eq_iff_same_members nd1 nd2).mpr hkeys)
                        · refine (isEqualsFields_iff f1 f2).mpr ?_
                          intro k v hvmem hvreal
                          have hk : k ∈ realKeysUnsorted f1 :=
                            (mem_realKeysUnsorted_iff f1 k).mpr ⟨v, hvmem, hvreal⟩
                          have hD2 := hvals k hk
                          have hget1 : f1.getFieldOf k = v :=
                            getFieldOf_eq_of_mem f1 k v hw1.1 hvmem
                          rw [hget1] at hD2
                          obtain ⟨v2, hv2mem, hv2real⟩ :=
                            (mem_realKeysUnsorted_iff f2 k).mp ((hkeys k).mp hk)
                          have hget2 : f2.getFieldOf k = v2 :=
                            getFieldOf_eq_of_mem f2 k v2 hw2.1 hv2mem
                          rw [hget2] at hD2
                          rw [hget2]
                          refine (ih v v2 ?_ (wfFields_mem f1 k v hw1.2 hvmem)
                            (wfValue_of_wfFieldValue_real
                              (wfFields_mem f2 k v2 hw2.2 hv2mem) hv2real)).mpr hD2
                          have := sizeOf_mem_fields f1 k v hvmem
                          omega
              | vDAO t2 =>
                  rw [wfValue_vDAO] at h2
                  exact absurd h2 (by simp)
              | vNull => exact absurd hty (by simp)
              | vUndefined => exact absurd hty (by simp)
              | vBool b => exact absurd hty (by simp)
              | vNum m => exact absurd hty (by simp)
              | vStr s => exact absurd hty (by simp)
              | vFunc t => exact absurd hty (by simp)
              | vDate t m => exact absurd hty (by simp)
              | vArr t l => exact absurd hty (by simp)

/-- Specialization of the bounded equivalence to its natural statement. -/
lemma isEquals_iff_deepEq {o1 o2 : Value} (h1 : wfFieldValue o1 = true)
    (h2 : wfValue o2 = true) :
    isEqualsRecursive o1 o2 = true ↔ DeepEq o1 o2 :=
  isEquals_iff_deepEq_bounded (sizeOf o1) o1 o2 le_rfl h1 h2

lemma jsStrictEq_refl : ∀ v : Value, jsStrictEq v v = true := by
  intro v
  cases v <;> simp [jsStrictEq]

lemma getFieldOf_mem_or_vUndef : ∀ (f : FieldList) (k : String),
    f.getFieldOf k = .vUndefined ∨ (k, f.getFieldOf k) ∈ f.toList := by
  intro f
  induction f with
  | nil => intro k; exact Or.inl rfl
  | cons k2 v2 tl ih =>
      intro k
      simp only [FieldList.getFieldOf, FieldList.toList]
      by_cases hk : k2 == k
      · have : k2 = k := by simpa using hk
        rw [if_pos hk]
        subst this
        exact Or.inr (List.mem_cons_self _ _)
      · rw [if_neg hk]
        rcases ih k with h | h
        · exact Or.inl h
        · exact Or.inr (List.mem_cons_of_mem _ h)

lemma wfFieldValue_getField {original : Value} (h : wfValue original = true)
    (k : String) : wfFieldValue (getField original k) = true := by
  cases original with
  | vObj t f =>
      rw [wfValue_vObj] at h
      simp only [Bool.and_eq_true] at h
      rcases getFieldOf_mem_or_vUndef f k with hu | hm
      · simp only [getField, hu]
        rfl
      · exact wfFields_mem f k _ h.2 hm
  | vNull => rfl
  | vUndefined => rfl
  | vBool b => rfl
  | vNum m => rfl
  | vStr s => rfl
  | vDate t m => rfl
  | vFunc t => rfl
  | vDAO t => rfl
  | vArr t l => rfl

lemma mem_diffFields_iff : ∀ (f : FieldList) (original : Value) (k : String)
    (v : Value),
    (k, v) ∈ (diffFields original f).toList ↔
      ((k, v) ∈ f.toList ∧ isRealValue v = true ∧
        isEqualsRecursive (getField original k) v = false) := by
  intro f
  induction f with
  | nil =>
      intro original k v
      simp [diffFields, FieldList.toList]
  | cons k2 v2 tl ih =>
      intro original k v
      simp only [diffFields]
      by_cases hc : isRealValue v2 && !(isEqualsRecursive (getField original k2) v2)
      · rw [if_pos hc]
        simp only [Bool.and_eq_true, Bool.not_eq_true'] at hc
        simp only [FieldList.toList, List.mem_cons, ih]
        constructor
        · rintro (heq | ⟨hm, hr, he⟩)
          · have hk : k = k2 := congrArg Prod.fst heq
            have hv : v = v2 := congrArg Prod.snd heq
            subst hk
            subst hv
            exact ⟨Or.inl rfl, hc.1, hc.2⟩
          · exact ⟨Or.inr hm, hr, he⟩
        · rintro ⟨(heq | hm), hr, he⟩
          · exact Or.inl heq
          · exact Or.inr ⟨hm, hr, he⟩
      · rw [if_neg hc]
        simp only [Bool.and_eq_true, Bool.not_eq_true'] at hc
        simp only [FieldList.toList, List.mem_cons, ih]
        constructor
        · rintro ⟨hm, hr, he⟩
          exact ⟨Or.inr hm, hr, he⟩
        · rintro ⟨(heq | hm), hr, he⟩
          · exfalso
            have hk : k = k2 := congrArg Prod.fst heq
            have hv : v = v2 := congrArg Prod.snd heq
            subst hk
            subst hv
            exact hc ⟨hr, he⟩
          · exact ⟨hm, hr, he⟩

lemma diffFields_nil_of_covering : ∀ (f : FieldList) (original : Value),
    (∀ k v, (k, v) ∈ f.toList → isRealValue v = true →
      isEqualsRecursive (getField original k) v = true) →
    diffFields original f = .nil := by
  intro f
  induction f with
  | nil => intro original _; rfl
  | cons k2 v2 tl ih =>
      intro original hcov
      simp only [diffFields]
      have htl : diffFields original tl = .nil :=
        ih original (fun k v hm hr => hcov k v (List.mem_cons_of_mem _ hm) hr)
      by_cases hr : isRealValue v2 = true
      · have := hcov k2 v2 (List.mem_cons_self _ _) hr
        rw [if_neg]
        · exact htl
        · simp [hr, this]
      · rw [if_neg]
        · exact htl
        · simp [hr]

lemma makeCopy_vDate (t : Nat) (m : Int) (n : Nat) :
    makeCopyOfObject (.vDate t m) n = (.vDate n m, n + 1) := rfl

lemma makeCopy_vDAO (t n : Nat) :
    makeCopyOfObject (.vDAO t) n = (.vObj n .nil, n + 1) := rfl

lemma makeCopy_vArr (t : Nat) (l : ValueList) (n : Nat) :
    makeCopyOfObject (.vArr t l) n =
      (.vArr n (makeCopyOfList l (n + 1)).1, (makeCopyOfList l (n + 1)).2) := rfl

lemma makeCopy_vObj (t : Nat) (f : FieldList) (n : Nat) :
    makeCopyOfObject (.vObj t f) n =
      (.vObj n (makeCopyOfFields f (n + 1)).1, (makeCopyOfFields f (n + 1)).2) :=
  rfl

lemma makeCopy_nonobject {v : Value} (h : jsTypeof v ≠ ("object")) (n : Nat) :
    makeCopyOfObject v n = (v, n) := by
  cases v <;> first | rfl | exact absurd rfl h

lemma makeCopy_prim {v : Value} (h : isPrimitiveLike v = true) (n : Nat) :
    makeCopyOfObject v n = (v, n) := by
  cases v <;> first
    | rfl
    | simp [isPrimitiveLike_vDate, isPrimitiveLike_vArr, isPrimitiveLike_vObj,
        isPrimitiveLike_vDAO] at h

lemma list_sizeOf_pos : ∀ l : ValueList, 0 < sizeOf l := by
  intro l
  cases l <;> simp

lemma fields_sizeOf_pos : ∀ f : FieldList, 0 < sizeOf f := by
  intro f
  cases f <;> simp

lemma objTags_copy_prim {v : Value} (h : isPrimitiveLike v = true) (n : Nat) :
    objTags (makeCopyOfObject v n).1 = [] := by
  cases v <;> first
    | rfl
    | simp [isPrimitiveLike_vDate, isPrimitiveLike_vArr, isPrimitiveLike_vObj,
        isPrimitiveLike_vDAO] at h

lemma copyFresh : ∀ N : Nat,
    (∀ (v : Value) (n : Nat), sizeOf v ≤ N →
      n ≤ (makeCopyOfObject v n).2 ∧
        ∀ t ∈ objTags (makeCopyOfObject v n).1, n ≤ t) ∧
    (∀ (l : ValueList) (n : Nat), sizeOf l ≤ N →
      n ≤ (makeCopyOfList l n).2 ∧
        ∀ t ∈ objTagsList (makeCopyOfList l n).1, n ≤ t) ∧
    (∀ (f : FieldList) (n : Nat), sizeOf f ≤ N →
      n ≤ (makeCopyOfFields f n).2 ∧
        ∀ t ∈ objTagsFields (makeCopyOfFields f n).1, n ≤ t) := by
  intro N
  induction N with
  | zero =>
      refine ⟨fun v n hs => absurd hs ?_, fun l n hs => absurd hs ?_,
        fun f n hs => absurd hs ?_⟩
      · have := val_sizeOf_pos v; omega
      · have := list_sizeOf_pos l; omega
      · have := fields_sizeOf_pos f; omega
  | succ N ih =>
      obtain ⟨ihv, ihl, ihf⟩ := ih
      refine ⟨?_, ?_, ?_⟩
      · intro v n hs
        cases v with
        | vDate t m =>
            rw [makeCopy_vDate]
            refine ⟨by omega, ?_⟩
            intro t2 ht2
            simp only [objTags, List.mem_singleton] at ht2
            omega
        | vDAO t =>
            rw [makeCopy_vDAO]
            refine ⟨by omega, ?_⟩
            intro t2 ht2
            simp only [objTags, objTagsFields, List.mem_cons] at ht2
            rcases ht2 with rfl | h
            · omega
            · simp at h
        | vArr t l =>
            rw [makeCopy_vArr]
            have hsl : sizeOf l ≤ N := by simp at hs; omega
            obtain ⟨hc, htags⟩ := ihl l (n + 1) hsl
            refine ⟨by omega, ?_⟩
            intro t2 ht2
            simp only [objTags, List.mem_cons] at ht2
            rcases ht2 with rfl | h
            · omega
            · have := htags t2 h
              omega
        | vObj t f =>
            rw [makeCopy_vObj]
            have hsf : sizeOf f ≤ N := by simp at hs; omega
            obtain ⟨hc, htags⟩ := ihf f (n + 1) hsf
            refine ⟨by omega, ?_⟩
            intro t2 ht2
            simp only [objTags, List.mem_cons] at ht2
            rcases ht2 with rfl | h
            · omega
            · have := htags t2 h
              omega
        | vNull =>
            exact ⟨le_rfl, by
              intro t ht
              rw [objTags_copy_prim (v := .vNull) rfl n] at ht
              simp at ht⟩
        | vUndefined =>
            exact ⟨le_rfl, by
              intro t ht
              rw [objTags_copy_prim (v := .vUndefined) rfl n] at ht
              simp at ht⟩
        | vBool b =>
            exact ⟨le_rfl, by
              intro t ht
              rw [objTags_copy_prim (v := .vBool b) rfl n] at ht
              simp at ht⟩
        | vNum m =>
            exact ⟨le_rfl, by
              intro t ht
              rw [objTags_copy_prim (v := .vNum m) rfl n] at ht
              simp at ht⟩
        | vStr s =>
            exact ⟨le_rfl, by
              intro t ht
              rw [objTags_copy_prim (v := .vStr s) rfl n] at ht
              simp at ht⟩
        | vFunc t =>
            exact ⟨le_rfl, by
              intro t2 ht2
              rw [objTags_copy_prim (v := .vFunc t) rfl n] at ht2
              simp at ht2⟩
      · intro l n hs
        cases l with
        | nil => exact ⟨le_rfl, by intro t ht; simp [objTagsList] at ht⟩
        | cons v tl =>
            have hsv : sizeOf v ≤ N := by simp at hs; omega
            have hstl : sizeOf tl ≤ N := by simp at hs; omega
            obtain ⟨hc1, ht1⟩ := ihv v n hsv
            obtain ⟨hc2, ht2⟩ := ihl tl (makeCopyOfObject v n).2 hstl
            simp only [makeCopyOfList]
            refine ⟨by omega, ?_⟩
            intro t ht
            simp only [objTagsList, List.mem_append] at ht
            rcases ht with h | h
            · exact ht1 t h
            · have := ht2 t h
              omega
      · intro f n hs
        cases f with
        | nil => exact ⟨le_rfl, by intro t ht; simp [objTagsFields] at ht⟩
        | cons k v tl =>
            have hsv : sizeOf v ≤ N := by simp at hs; omega
            have hstl : sizeOf tl ≤ N := by simp at hs; omega
            simp only [makeCopyOfFields]
            by_cases hr : isRealValue v = true
            · rw [if_pos hr]
              by_cases ho : jsTypeof v == ("object")
              · rw [if_pos ho]
                obtain ⟨hc1, ht1⟩ := ihv v n hsv
                obtain ⟨hc2, ht2⟩ := ihf tl (makeCopyOfObject v n).2 hstl
                refine ⟨by omega, ?_⟩
                intro t ht
                simp only [objTagsFields, List.mem_append] at ht
                rcases ht with h | h
                · exact ht1 t h
                · have := ht2 t h
                  omega
              · rw [if_neg ho]
                obtain ⟨hc2, ht2⟩ := ihf tl n hstl
                refine ⟨by omega, ?_⟩
                intro t ht
                simp only [objTagsFields, List.mem_append] at ht
                rcases ht with h | h
                · exfalso
                  have hno : jsTypeof v ≠ ("object") := by simpa using ho
                  cases v <;> first
                    | exact absurd rfl hno
                    | simp [objTags] at h
                · exact ht2 t h
            · rw [if_neg hr]
              exact ihf tl n hstl

lemma mutateAt_notMem : ∀ N : Nat,
    (∀ (v : Value), sizeOf v ≤ N → ∀ (t : Nat) (g : Value → Value),
      t ∉ objTags v → mutateAt t g v = v) ∧
    (∀ (l : ValueList), sizeOf l ≤ N → ∀ (t : Nat) (g : Value → Value),
      t ∉ objTagsList l → mutateAtList t g l = l) ∧
    (∀ (f : FieldList), sizeOf f ≤ N → ∀ (t : Nat) (g : Value → Value),
      t ∉ objTagsFields f → mutateAtFields t g f = f) := by
  intro N
  induction N with
  | zero =>
      refine ⟨fun v hs => absurd hs ?_, fun l hs => absurd hs ?_,
        fun f hs => absurd hs ?_⟩
      · have := val_sizeOf_pos v; omega
      · have := list_sizeOf_pos l; omega
      · have := fields_sizeOf_pos f; omega
  | succ N ih =>
      obtain ⟨ihv, ihl, ihf⟩ := ih
      refine ⟨?_, ?_, ?_⟩
      · intro v hs t g hmem
        cases v with
        | vDate t2 m =>
            simp only [objTags, List.mem_singleton] at hmem
            simp only [mutateAt]
            rw [if_neg (by simpa using fun h => hmem h.symm)]
        | vDAO t2 =>
            simp only [objTags, List.mem_singleton] at hmem
            simp only [mutateAt]
            rw [if_neg (by simpa using fun h => hmem h.symm)]
        | vArr t2 l =>
            simp only [objTags, List.mem_cons] at hmem
            push_neg at hmem
            simp only [mutateAt]
            rw [if_neg (by simpa using fun h => hmem.1 h.symm)]
            have hsl : sizeOf l ≤ N := by simp at hs; omega
            rw [ihl l hsl t g hmem.2]
        | vObj t2 f =>
            simp only [objTags, List.mem_cons] at hmem
            push_neg at hmem
            simp only [mutateAt]
            rw [if_neg (by simpa using fun h => hmem.1 h.symm)]
            have hsf : sizeOf f ≤ N := by simp at hs; omega
            rw [ihf f hsf t g hmem.2]
        | vNull => rfl
        | vUndefined => rfl
        | vBool b => rfl
        | vNum m => rfl
        | vStr s => rfl
        | vFunc t2 => rfl
      · intro l hs t g hmem
        cases l with
        | nil => rfl
        | cons v tl =>
            simp only [objTagsList, List.mem_append] at hmem
            push_neg at hmem
            have hsv : sizeOf v ≤ N := by simp at hs; omega
            have hstl : sizeOf tl ≤ N := by simp at hs; omega
            simp only [mutateAtList]
            rw [ihv v hsv t g hmem.1, ihl tl hstl t g hmem.2]
      · intro f hs t g hmem
        cases f with
        | nil => rfl
        | cons k v tl =>
            simp only [objTagsFields, List.mem_append] at hmem
            push_neg at hmem
            have hsv : sizeOf v ≤ N := by simp at hs; omega
            have hstl : sizeOf tl ≤ N := by simp at hs; omega
            simp only [mutateAtFields]
            rw [ihv v hsv t g hmem.1, ihf tl hstl t g hmem.2]

/-- Mutating a heap cell whose identity does not occur in a value leaves the
value unchanged. -/
lemma mutateAt_of_not_mem {v : Value} {t : Nat} (g : Value → Value)
    (h : t ∉ objTags v) : mutateAt t g v = v :=
  (mutateAt_notMem (sizeOf v)).1 v le_rfl t g h

lemma isEquals_self_prim {v : Value} (h : isPrimitiveLike v = true) :
    isEqualsRecursive v v = true := by
  rw [isEquals_prim h h]
  exact jsStrictEq_refl v

lemma isRealValue_copy {v : Value} (h : isRealValue v = true) (n : Nat) :
    isRealValue (makeCopyOfObject v n).1 = true := by
  cases v <;> first
    | rfl
    | simp [isRealValue] at h

lemma isPrimitiveLike_of_not_objTypeof {v : Value}
    (h : jsTypeof v ≠ ("object")) : isPrimitiveLike v = true := by
  cases v <;> first
    | rfl
    | exact absurd rfl h

lemma copyIsEquals : ∀ N : Nat,
    (∀ (v : Value) (n : Nat), sizeOf v ≤ N → wfValue v = true →
      isEqualsRecursive (makeCopyOfObject v n).1 v = true) ∧
    (∀ (l : ValueList) (n : Nat), sizeOf l ≤ N → wfList l = true →
      (makeCopyOfList l n).1.length = l.length ∧
      isEqualsList (makeCopyOfList l n).1 l = true) ∧
    (∀ (f : FieldList) (n : Nat) (f0 : FieldList), sizeOf f ≤ N →
      wfFields f = true →
      (∀ k v, (k, v) ∈ f.toList → f0.getFieldOf k = v) →
      realKeysUnsorted (makeCopyOfFields f n).1 = realKeysUnsorted f ∧
      isEqualsFields (makeCopyOfFields f n).1 f0 = true) := by
  intro N
  induction N with
  | zero =>
      refine ⟨fun v n hs => absurd hs ?_, fun l n hs => absurd hs ?_,
        fun f n f0 hs => absurd hs ?_⟩
      · have := val_sizeOf_pos v; omega
      · have := list_sizeOf_pos l; omega
      · have := fields_sizeOf_pos f; omega
  | succ N ih =>
      obtain ⟨ihv, ihl, ihf⟩ := ih
      refine ⟨?_, ?_, ?_⟩
      · intro v n hs hw
        cases v with
        | vNull => rfl
        | vUndefined => rfl
        | vBool b => exact beq_self_eq_true b
        | vNum m => exact beq_self_eq_true m
        | vStr s => exact beq_self_eq_true s
        | vFunc t => exact beq_self_eq_true t
        | vDate t m => exact beq_self_eq_true m
        | vDAO t =>
            rw [wfValue_vDAO] at hw
            exact absurd hw (by simp)
        | vArr t l =>
            rw [makeCopy_vArr]
            rw [wfValue_vArr] at hw
            have hsl : sizeOf l ≤ N := by simp at hs; omega
            obtain ⟨hlen, hlist⟩ := ihl l (n + 1) hsl hw
            rw [isEquals_arr_arr, Bool.and_eq_true]
            exact ⟨by simp [hlen], hlist⟩
        | vObj t f =>
            rw [makeCopy_vObj]
            rw [wfValue_vObj] at hw
            simp only [Bool.and_eq_true] at hw
            have hsf : sizeOf f ≤ N := by simp at hs; omega
            obtain ⟨hkeys, hflds⟩ := ihf f (n + 1) f hsf hw.2
              (fun k v hm => getFieldOf_eq_of_mem f k v hw.1 hm)
            rw [isEquals_obj_obj, Bool.and_eq_true]
            refine ⟨?_, hflds⟩
            have hgr : getRealKeys (makeCopyOfFields f (n + 1)).1 = getRealKeys f := by
              unfold getRealKeys
              rw [hkeys]
            rw [hgr]
            exact compareArrays_self _
      · intro l n hs hw
        cases l with
        | nil => exact ⟨rfl, rfl⟩
        | cons v tl =>
            have hwv : wfValue v = true ∧ wfList tl = true := by
              have h : wfList (.cons v tl) = (wfValue v && wfList tl) := rfl
              rw [h] at hw
              simpa using hw
            have hsv : sizeOf v ≤ N := by simp at hs; omega
            have hstl : sizeOf tl ≤ N := by simp at hs; omega
            simp only [makeCopyOfList]
            obtain ⟨hlen, hlist⟩ := ihl tl (makeCopyOfObject v n).2 hstl hwv.2
            constructor
            · simp only [ValueList.length, hlen]
            · simp only [isEqualsList, Bool.and_eq_true]
              exact ⟨ihv v n hsv hwv.1, hlist⟩
      · intro f n f0 hs hw hcov
        cases f with
        | nil => exact ⟨rfl, rfl⟩
        | cons k v tl =>
            rw [wfFields_cons, Bool.and_eq_true] at hw
            have hsv : sizeOf v ≤ N := by simp at hs; omega
            have hstl : sizeOf tl ≤ N := by simp at hs; omega
            have hcovtl : ∀ k2 v2, (k2, v2) ∈ tl.toList → f0.getFieldOf k2 = v2 :=
              fun k2 v2 hm => hcov k2 v2 (List.mem_cons_of_mem _ hm)
            simp only [makeCopyOfFields]
            by_cases hr : isRealValue v = true
            · rw [if_pos hr]
              have hwv : wfValue v = true := wfValue_of_wfFieldValue_real hw.1 hr
              have hget : f0.getFieldOf k = v :=
                hcov k v (List.mem_cons_self _ _)
              by_cases ho : jsTypeof v == ("object")
              · rw [if_pos ho]
                obtain ⟨hkeys, hflds⟩ :=
                  ihf tl (makeCopyOfObject v n).2 f0 hstl hw.2 hcovtl
                constructor
                · simp only [realKeysUnsorted, hr, if_true,
                    isRealValue_copy hr n, hkeys]
                · simp only [isEqualsFields, Bool.and_eq_true]
                  refine ⟨?_, hflds⟩
                  rw [if_pos (isRealValue_copy hr n), hget]
                  exact ihv v n hsv hwv
              · rw [if_neg ho]
                obtain ⟨hkeys, hflds⟩ := ihf tl n f0 hstl hw.2 hcovtl
                constructor
                · simp only [realKeysUnsorted, hr, if_true, hkeys]
                · simp only [isEqualsFields, Bool.and_eq_true]
                  refine ⟨?_, hflds⟩
                  rw [if_pos hr, hget]
                  exact isEquals_self_prim
                    (isPrimitiveLike_of_not_objTypeof (by simpa using ho))
            · rw [if_neg hr]
              obtain ⟨hkeys, hflds⟩ := ihf tl n f0 hstl hw.2 hcovtl
              constructor
              · simp [realKeysUnsorted, hkeys, Bool.eq_false_iff.mpr hr]
              · exact hflds

lemma copyFields_lookup : ∀ (f : FieldList) (n : Nat) (k : String) (v : Value),
    noDupKeys f.keys = true → (k, v) ∈ f.toList → isRealValue v = true →
    ∃ m, (makeCopyOfFields f n).1.getFieldOf k = (makeCopyOfObject v m).1 := by
  intro f
  induction f with
  | nil => simp [FieldList.toList]
  | cons k2 v2 tl ih =>
      intro n k v hnd hmem hr
      simp only [FieldList.keys, noDupKeys, Bool.and_eq_true,
        Bool.not_eq_true'] at hnd
      simp only [FieldList.toList, List.mem_cons] at hmem
      simp only [makeCopyOfFields]
      by_cases hr2 : isRealValue v2 = true
      · rw [if_pos hr2]
        by_cases ho : jsTypeof v2 == ("object")
        · rw [if_pos ho]
          rcases hmem with heq | hmem2
          · have hk : k = k2 := congrArg Prod.fst heq
            have hv : v = v2 := congrArg Prod.snd heq
            subst hk
            subst hv
            refine ⟨n, ?_⟩
            simp [FieldList.getFieldOf]
          · have hkne : k2 ≠ k := by
              intro hkk
              have : k ∈ tl.keys := mem_keys_of_mem_toList tl k v hmem2
              rw [hkk] at hnd
              have hdec := hnd.1
              simp at hdec
              exact hdec this
            have hbe : (k2 == k) = false := beq_eq_false_iff_ne.mpr hkne
            simp only [FieldList.getFieldOf, hbe, Bool.false_eq_true, if_false]
            exact ih (makeCopyOfObject v2 n).2 k v hnd.2 hmem2 hr
        · rw [if_neg ho]
          rcases hmem with heq | hmem2
          · have hk : k = k2 := congrArg Prod.fst heq
            have hv : v = v2 := congrArg Prod.snd heq
            subst hk
            subst hv
            refine ⟨0, ?_⟩
            rw [makeCopy_nonobject (by simpa using ho) 0]
            simp [FieldList.getFieldOf]
          · have hkne : k2 ≠ k := by
              intro hkk
              have : k ∈ tl.keys := mem_keys_of_mem_toList tl k v hmem2
              rw [hkk] at hnd
              have hdec := hnd.1
              simp at hdec
              exact hdec this
            have hbe : (k2 == k) = false := beq_eq_false_iff_ne.mpr hkne
            simp only [FieldList.getFieldOf, hbe, Bool.false_eq_true, if_false]
            exact ih n k v hnd.2 hmem2 hr
      · rw [if_neg hr2]
        rcases hmem with heq | hmem2
        · exfalso
          have hv : v = v2 := congrArg Prod.snd heq
          rw [hv] at hr
          exact hr2 hr
        · exact ih n k v hnd.2 hmem2 hr

/-- The diff of a fresh deep copy against its source is empty: every data
field of the source deep-equals the corresponding field of the copy. -/
lemma firstLevelDiff_copy_nil {v : Value} (hw : wfValue v = true) (n : Nat) :
    firstLevelObjectDifference (makeCopyOfObject v n).1 v = .nil := by
  cases v with
  | vObj t f =>
      rw [wfValue_vObj] at hw
      simp only [Bool.and_eq_true] at hw
      unfold firstLevelObjectDifference
      have hob : objFields (Value.vObj t f) = f := rfl
      rw [hob]
      apply diffFields_nil_of_covering
      intro k v2 hm hr
      obtain ⟨m, hlook⟩ := copyFields_lookup f (n + 1) k v2 hw.1 hm hr
      rw [makeCopy_vObj]
      have hgf : getField (Value.vObj n (makeCopyOfFields f (n + 1)).1) k
          = (makeCopyOfFields f (n + 1)).1.getFieldOf k := rfl
      rw [hgf, hlook]
      exact (copyIsEquals (sizeOf v2)).1 v2 m le_rfl
        (wfValue_of_wfFieldValue_real (wfFields_mem f k v2 hw.2 hm) hr)
  | vNull => rfl
  | vUndefined => rfl
  | vBool b => rfl
  | vNum m => rfl
  | vStr s => rfl
  | vDate t m => rfl
  | vFunc t => rfl
  | vDAO t => rfl
  | vArr t l => rfl

lemma fieldList_length_beq_zero : ∀ f : FieldList,
    (f.length == 0) = true ↔ f = .nil := by
  intro f
  cases f with
  | nil => simp [FieldList.length]
  | cons k v tl =>
      simp only [FieldList.length]
      constructor
      · intro h
        simp at h
      · intro h
        exact absurd h (by simp)

lemma save_empty_diff {ε : Type} (st : DAOState) (n : Nat)
    (dM : String → Option FilterOp → FieldList → Except ε Nat)
    (dU : String → String → Value → FieldList → Except ε Unit)
    (cond : Option DataFilter) (hpk : (st.pk == "") = false)
    (hd : firstLevelObjectDifference st.original st.ref = .nil) :
    DataAccessObject.save st n dM dU cond = ⟨.ok false, st, n, []⟩ := by
  unfold DataAccessObject.save
  simp only [hpk, Bool.false_eq_true, if_false, hd]
  rfl

lemma save_ok_true_state {ε : Type} {st : DAOState} {n : Nat}
    {dM : String → Option FilterOp → FieldList → Except ε Nat}
    {dU : String → String → Value → FieldList → Except ε Unit}
    {cond : Option DataFilter}
    (h : (DataAccessObject.save st n dM dU cond).result = .ok true) :
    (DataAccessObject.save st n dM dU cond).state =
      { st with original := (makeCopyOfObject st.ref n).1 } := by
  unfold DataAccessObject.save at h ⊢
  by_cases hpk : (st.pk == "") = true
  · simp [hpk] at h
  · simp only [hpk, Bool.false_eq_true, if_false] at h ⊢
    by_cases hd : ((firstLevelObjectDifference st.original st.ref).length == 0) = true
    · simp [hd] at h
    · simp only [hd, Bool.false_eq_true, if_false] at h ⊢
      cases cond with
      | none =>
          simp only at h ⊢
          split at h
          · simp at h
          · rfl
      | some c =>
          cases hE : dM st.table
              (DataFilter.and [DataFilter.equals st.pk (getField st.ref st.pk), c]).query
              (firstLevelObjectDifference st.original st.ref) with
          | error e =>
              simp only [hE] at h
              simp at h
          | ok aff =>
              simp only [hE] at h ⊢
              by_cases ha : 0 < aff
              · simp only [if_pos ha]
              · simp only [if_neg ha] at h
                simp at h

lemma wfFields_objFields {v : Value} (h : wfValue v = true) :
    wfFields (objFields v) = true := by
  cases v with
  | vObj t f =>
      rw [wfValue_vObj] at h
      have h2 : noDupKeys f.keys = true ∧ wfFields f = true := by simpa using h
      exact h2.2
  | vNull => rfl
  | vUndefined => rfl
  | vBool b => rfl
  | vNum m => rfl
  | vStr s => rfl
  | vDate t m => rfl
  | vFunc t => rfl
  | vDAO t => rfl
  | vArr t l => rfl

/-- C1: for every bound entity, `save` computes the diff as exactly the set of
fields of `ref` (excluding function-valued fields and the tracker itself)
whose values differ from the `original` snapshot under deep structural
equality (scalars by value, dates by instant, arrays positionally, objects by
unordered key sets); an empty diff makes `save` return false ("not saved")
with no driver call and no state change, and a `save` issued directly after a
successful `save` (whose success refreshed `original`) is such a no-op. -/
theorem save_minimal_diff {ε δ : Type} (st : DAOState) (n : Nat)
    (dM : String → Option FilterOp → FieldList → Except ε Nat)
    (dU : String → String → Value → FieldList → Except ε Unit)
    (hpk : st.pk ≠ ("")) (hwo : wfValue st.original = true)
    (hwr : wfValue st.ref = true) :
    (∀ k v, (k, v) ∈ (firstLevelObjectDifference st.original st.ref).toList ↔
      ((k, v) ∈ (objFields st.ref).toList ∧ isRealValue v = true ∧
        ¬ DeepEq (getField st.original k) v)) ∧
    (firstLevelObjectDifference st.original st.ref = .nil →
      ∀ cond, DataAccessObject.save st n dM dU cond = ⟨.ok false, st, n, []⟩) ∧
    (∀ cond, (DataAccessObject.save st n dM dU cond).result = .ok true →
      ∀ (n2 : Nat) (dM2 : String → Option FilterOp → FieldList → Except δ Nat)
        (dU2 : String → String → Value → FieldList → Except δ Unit)
        (cond2 : Option DataFilter),
        DataAccessObject.save (DataAccessObject.save st n dM dU cond).state n2
            dM2 dU2 cond2 =
          ⟨.ok false, (DataAccessObject.save st n dM dU cond).state, n2, []⟩) := by
  have hbe : (st.pk == ("")) = false := beq_eq_false_iff_ne.mpr hpk
  refine ⟨?_, ?_, ?_⟩
  · intro k v
    unfold firstLevelObjectDifference
    rw [mem_diffFields_iff]
    constructor
    · rintro ⟨hm, hr, he⟩
      refine ⟨hm, hr, ?_⟩
      intro hD
      have hwv : wfValue v = true :=
        wfValue_of_wfFieldValue_real
          (wfFields_mem (objFields st.ref) k v (wfFields_objFields hwr) hm) hr
      have ht := (isEquals_iff_deepEq (wfFieldValue_getField hwo k) hwv).mpr hD
      rw [he] at ht
      exact absurd ht (by simp)
    · rintro ⟨hm, hr, hnD⟩
      refine ⟨hm, hr, ?_⟩
      have hwv : wfValue v = true :=
        wfValue_of_wfFieldValue_real
          (wfFields_mem (objFields st.ref) k v (wfFields_objFields hwr) hm) hr
      by_cases hE : isEqualsRecursive (getField st.original k) v = true
      · exact absurd ((isEquals_iff_deepEq (wfFieldValue_getField hwo k) hwv).mp hE) hnD
      · exact Bool.eq_false_iff.mpr hE
  · intro hdiff cond
    exact save_empty_diff st n dM dU cond hbe hdiff
  · intro cond hres n2 dM2 dU2 cond2
    have hstate := save_ok_true_state hres
    have hdiff2 : firstLevelObjectDifference
        (DataAccessObject.save st n dM dU cond).state.original
        (DataAccessObject.save st n dM dU cond).state.ref = .nil := by
      rw [hstate]
      exact firstLevelDiff_copy_nil hwr n
    have hpk2 : ((DataAccessObject.save st n dM dU cond).state.pk == ("")) = false := by
      rw [hstate]
      exact hbe
    exact save_empty_diff _ n2 dM2 dU2 cond2 hpk2 hdiff2

/-- Witness for C1 at a concrete bound entity whose snapshot and live object
are structurally equal but not aliased: the save is a no-op. -/
theorem save_minimal_diff_witness :
    (("id" : String) ≠ ("")) ∧
    wfValue (.vObj 0 (.cons ("id") (.vNum 1) .nil)) = true ∧
    wfValue (.vObj 9 (.cons ("id") (.vNum 1) .nil)) = true ∧
    DataAccessObject.save (ε := Unit)
        ⟨("src"), ("tbl"), ("id"), .vObj 0 (.cons ("id") (.vNum 1) .nil),
          .vObj 9 (.cons ("id") (.vNum 1) .nil)⟩ 20
        (fun _ _ _ => .ok 1) (fun _ _ _ _ => .ok ()) none =
      ⟨.ok false,
        ⟨("src"), ("tbl"), ("id"), .vObj 0 (.cons ("id") (.vNum 1) .nil),
          .vObj 9 (.cons ("id") (.vNum 1) .nil)⟩, 20, []⟩ :=
  ⟨by decide, by rfl, by rfl,
    (save_minimal_diff (ε := Unit) (δ := Unit)
        ⟨("src"), ("tbl"), ("id"), .vObj 0 (.cons ("id") (.vNum 1) .nil),
          .vObj 9 (.cons ("id") (.vNum 1) .nil)⟩ 20
        (fun _ _ _ => .ok 1) (fun _ _ _ _ => .ok ())
        (by decide) (by rfl) (by rfl)).2.1 (by rfl) none⟩

lemma fieldList_ne_nil_length {f : FieldList} (h : f ≠ .nil) :
    (f.length == 0) = false := by
  rw [Bool.eq_false_iff]
  intro hc
  exact h ((fieldList_length_beq_zero f).mp hc)

/-- C2 (amended): when `save(condition)` runs with a configured primary key
and a non-empty diff, the driver's multi-row update receives the filter
(primaryKey == ref[primaryKey]) AND condition — the key value is read from the
live `ref`, not from the `original` snapshot — the snapshot is refreshed to a
deep copy of `ref` exactly when the driver reports at least one affected row,
and save returns true iff the affected-row count is positive. -/
theorem save_conditional_update {ε : Type} (st : DAOState) (n : Nat)
    (dM : String → Option FilterOp → FieldList → Except ε Nat)
    (dU : String → String → Value → FieldList → Except ε Unit)
    (c : DataFilter) (affected : Nat) (hpk : st.pk ≠ (""))
    (hdiff : firstLevelObjectDifference st.original st.ref ≠ .nil)
    (hdrv : ∀ x y z, dM x y z = Except.ok affected) :
    (DataAccessObject.save st n dM dU (some c)).calls =
      [.updateManyCall st.table
        (DataFilter.and [DataFilter.equals st.pk (getField st.ref st.pk), c]).query
        (firstLevelObjectDifference st.original st.ref)] ∧
    (DataAccessObject.save st n dM dU (some c)).result =
      .ok (decide (0 < affected)) ∧
    (0 < affected →
      (DataAccessObject.save st n dM dU (some c)).state =
        { st with original := (makeCopyOfObject st.ref n).1 }) ∧
    (affected = 0 → (DataAccessObject.save st n dM dU (some c)).state = st) := by
  have hbe : (st.pk == ("")) = false := beq_eq_false_iff_ne.mpr hpk
  have hd := fieldList_ne_nil_length hdiff
  unfold DataAccessObject.save
  simp only [hbe, Bool.false_eq_true, if_false, hd, hdrv]
  by_cases ha : 0 < affected
  · simp only [if_pos ha]
    refine ⟨by trivial, by simp [ha], fun _ => by trivial,
      fun h0 => absurd h0 (by omega)⟩
  · simp only [if_neg ha]
    refine ⟨by trivial, by simp [ha], fun h0 => absurd h0 ha,
      fun _ => by trivial⟩

/-- Counterexample to C2 as stated: at a tracker whose live primary key (2)
differs from the snapshot's (1), the conditional save filters by the live
key value 2; the filter the claim describes, keyed by `original[pk]` = 1, is
not the one the driver receives. -/
theorem save_conditional_counterexample :
    (DataAccessObject.save (ε := Unit)
        ⟨("src"), ("tbl"), ("id"), .vObj 0 (.cons ("id") (.vNum 1) .nil),
          .vObj 9 (.cons ("id") (.vNum 2) .nil)⟩ 50
        (fun _ _ _ => .ok 1) (fun _ _ _ _ => .ok ())
        (some (DataFilter.equals ("age") (.vNum 10)))).calls =
      [.updateManyCall ("tbl")
        (some (.andOp [some (.cmpOp ("eq") ("id") (.vNum 2)),
          some (.cmpOp ("eq") ("age") (.vNum 10))]))
        (.cons ("id") (.vNum 2) .nil)] ∧
    getField (.vObj 0 (.cons ("id") (.vNum 1) .nil)) ("id") = .vNum 1 ∧
    (some (FilterOp.andOp [some (.cmpOp ("eq") ("id") (.vNum 2)),
        some (.cmpOp ("eq") ("age") (.vNum 10))]) : Option FilterOp) ≠
      some (.andOp [some (.cmpOp ("eq") ("id") (.vNum 1)),
        some (.cmpOp ("eq") ("age") (.vNum 10))]) := by
  refine ⟨rfl, rfl, ?_⟩
  intro h
  simp only [Option.some.injEq, FilterOp.andOp.injEq, List.cons.injEq,
    FilterOp.cmpOp.injEq, Value.vNum.injEq] at h
  omega

/-- C3: an unconditional `save` with a configured primary key and a non-empty
diff issues exactly one single-row driver update keyed by the primary-key
value held in the `original` snapshot; a mutated primary-key field therefore
locates the row by its old key while the new key value travels in the diff. -/
theorem save_unconditional_update {ε : Type} (st : DAOState) (n : Nat)
    (dM : String → Option FilterOp → FieldList → Except ε Nat)
    (dU : String → String → Value → FieldList → Except ε Unit)
    (hpk : st.pk ≠ (""))
    (hdiff : firstLevelObjectDifference st.original st.ref ≠ .nil)
    (hdrv : ∀ x y z w, dU x y z w = Except.ok ()) :
    (DataAccessObject.save st n dM dU none).calls =
      [.updateCall st.table st.pk (getField st.original st.pk)
        (firstLevelObjectDifference st.original st.ref)] ∧
    (DataAccessObject.save st n dM dU none).result = .ok true ∧
    (DataAccessObject.save st n dM dU none).state =
      { st with original := (makeCopyOfObject st.ref n).1 } ∧
    (∀ vNew, (st.pk, vNew) ∈ (objFields st.ref).toList →
      isRealValue vNew = true →
      isEqualsRecursive (getField st.original st.pk) vNew = false →
      (st.pk, vNew) ∈
        (firstLevelObjectDifference st.original st.ref).toList) := by
  have hbe : (st.pk == ("")) = false := beq_eq_false_iff_ne.mpr hpk
  have hd := fieldList_ne_nil_length hdiff
  unfold DataAccessObject.save
  simp only [hbe, Bool.false_eq_true, if_false, hd, hdrv]
  refine ⟨by trivial, by trivial, by trivial, ?_⟩
  intro vNew hm hr he
  unfold firstLevelObjectDifference
  exact (mem_diffFields_iff (objFields st.ref) st.original st.pk vNew).mpr
    ⟨hm, hr, he⟩

/-- Witness for C2's amended statement at a concrete state with a mutated
primary key and a driver reporting one affected row. -/
theorem save_conditional_update_witness :
    (("id" : String) ≠ ("")) ∧
    firstLevelObjectDifference (.vObj 0 (.cons ("id") (.vNum 1) .nil))
      (.vObj 9 (.cons ("id") (.vNum 2) .nil)) ≠ .nil ∧
    (DataAccessObject.save (ε := Unit)
        ⟨("src"), ("tbl"), ("id"), .vObj 0 (.cons ("id") (.vNum 1) .nil),
          .vObj 9 (.cons ("id") (.vNum 2) .nil)⟩ 50
        (fun _ _ _ => .ok 1) (fun _ _ _ _ => .ok ())
        (some (DataFilter.equals ("age") (.vNum 10)))).result =
      .ok (decide (0 < 1)) := by
  have hne : firstLevelObjectDifference (.vObj 0 (.cons ("id") (.vNum 1) .nil))
      (.vObj 9 (.cons ("id") (.vNum 2) .nil)) ≠ .nil := by
    intro h
    exact absurd (congrArg FieldList.length h) (by decide)
  exact ⟨by decide, hne,
    (save_conditional_update (ε := Unit)
        ⟨("src"), ("tbl"), ("id"), .vObj 0 (.cons ("id") (.vNum 1) .nil),
          .vObj 9 (.cons ("id") (.vNum 2) .nil)⟩ 50
        (fun _ _ _ => .ok 1) (fun _ _ _ _ => .ok ())
        (DataFilter.equals ("age") (.vNum 10)) 1 (by decide) hne
        (fun _ _ _ => rfl)).2.1⟩

/-- Witness for C3 at a concrete state whose primary key was mutated from 1 to
2: the single-row update is keyed by the old value 1 and the diff carries the
new value. -/
theorem save_unconditional_update_witness :
    (("id" : String) ≠ ("")) ∧
    firstLevelObjectDifference (.vObj 0 (.cons ("id") (.vNum 1) .nil))
      (.vObj 9 (.cons ("id") (.vNum 2) .nil)) ≠ .nil ∧
    (DataAccessObject.save (ε := Unit)
        ⟨("src"), ("tbl"), ("id"), .vObj 0 (.cons ("id") (.vNum 1) .nil),
          .vObj 9 (.cons ("id") (.vNum 2) .nil)⟩ 50
        (fun _ _ _ => .ok 1) (fun _ _ _ _ => .ok ()) none).calls =
      [.updateCall ("tbl") ("id")
        (getField (.vObj 0 (.cons ("id") (.vNum 1) .nil)) ("id"))
        (firstLevelObjectDifference (.vObj 0 (.cons ("id") (.vNum 1) .nil))
          (.vObj 9 (.cons ("id") (.vNum 2) .nil)))] := by
  have hne : firstLevelObjectDifference (.vObj 0 (.cons ("id") (.vNum 1) .nil))
      (.vObj 9 (.cons ("id") (.vNum 2) .nil)) ≠ .nil := by
    intro h
    exact absurd (congrArg FieldList.length h) (by decide)
  exact ⟨by decide, hne,
    (save_unconditional_update (ε := Unit)
        ⟨("src"), ("tbl"), ("id"), .vObj 0 (.cons ("id") (.vNum 1) .nil),
          .vObj 9 (.cons ("id") (.vNum 2) .nil)⟩ 50
        (fun _ _ _ => .ok 1) (fun _ _ _ _ => .ok ()) (by decide) hne
        (fun _ _ _ _ => rfl)).1⟩

/-- C4: when the driver call made by `insert` or `save` rejects, the error is
propagated to the caller and the tracker's `original` snapshot is left
unchanged (for `save`, the whole tracker state is unchanged), so a subsequent
retry recomputes the same diff. -/
theorem failed_write_preserves_original {ε : Type} (st : DAOState) (n : Nat)
    (e : ε) (dI : String → Value → String → Option Value × Option ε)
    (dM : String → Option FilterOp → FieldList → Except ε Nat)
    (dU : String → String → Value → FieldList → Except ε Unit)
    (hI : ∀ x y z, (dI x y z).2 = some e)
    (hM : ∀ x y z, dM x y z = Except.error e)
    (hU : ∀ x y z w, dU x y z w = Except.error e)
    (hpk : st.pk ≠ (""))
    (hdiff : firstLevelObjectDifference st.original st.ref ≠ .nil) :
    (DataAccessObject.insert st n dI).result = .error e ∧
    (DataAccessObject.insert st n dI).state.original = st.original ∧
    (∀ cond, DataAccessObject.save st n dM dU cond =
      ⟨.error (.driver e), st, n,
        (DataAccessObject.save st n dM dU cond).calls⟩) ∧
    (∀ cond, firstLevelObjectDifference
        (DataAccessObject.save st n dM dU cond).state.original
        (DataAccessObject.save st n dM dU cond).state.ref =
      firstLevelObjectDifference st.original st.ref) := by
  have hbe : (st.pk == ("")) = false := beq_eq_false_iff_ne.mpr hpk
  have hd := fieldList_ne_nil_length hdiff
  have hins : (DataAccessObject.insert st n dI).result = .error e ∧
      (DataAccessObject.insert st n dI).state.original = st.original := by
    unfold DataAccessObject.insert
    simp only [hI]
    exact ⟨by trivial, by trivial⟩
  have hsave : ∀ cond, DataAccessObject.save st n dM dU cond =
      ⟨.error (.driver e), st, n,
        (DataAccessObject.save st n dM dU cond).calls⟩ := by
    intro cond
    unfold DataAccessObject.save
    simp only [hbe, Bool.false_eq_true, if_false, hd]
    cases cond with
    | none => simp only [hU]
    | some c => simp only [hM]
  refine ⟨hins.1, hins.2, hsave, ?_⟩
  intro cond
  rw [hsave cond]

/-- Witness for C4 at a concrete state with a driver that always rejects. -/
theorem failed_write_preserves_original_witness :
    (("id" : String) ≠ ("")) ∧
    firstLevelObjectDifference (.vObj 0 (.cons ("id") (.vNum 1) .nil))
      (.vObj 9 (.cons ("id") (.vNum 2) .nil)) ≠ .nil ∧
    (DataAccessObject.insert (ε := Unit)
        ⟨("src"), ("tbl"), ("id"), .vObj 0 (.cons ("id") (.vNum 1) .nil),
          .vObj 9 (.cons ("id") (.vNum 2) .nil)⟩ 50
        (fun _ _ _ => (none, some ()))).state.original =
      .vObj 0 (.cons ("id") (.vNum 1) .nil) := by
  have hne : firstLevelObjectDifference (.vObj 0 (.cons ("id") (.vNum 1) .nil))
      (.vObj 9 (.cons ("id") (.vNum 2) .nil)) ≠ .nil := by
    intro h
    exact absurd (congrArg FieldList.length h) (by decide)
  exact ⟨by decide, hne,
    (failed_write_preserves_original (ε := Unit)
        ⟨("src"), ("tbl"), ("id"), .vObj 0 (.cons ("id") (.vNum 1) .nil),
          .vObj 9 (.cons ("id") (.vNum 2) .nil)⟩ 50 ()
        (fun _ _ _ => (none, some ())) (fun _ _ _ => .error ())
        (fun _ _ _ _ => .error ()) (fun _ _ _ => rfl) (fun _ _ _ => rfl)
        (fun _ _ _ _ => rfl) (by decide) hne).2.1⟩

lemma copyFields_keys : ∀ (f : FieldList) (n : Nat),
    (makeCopyOfFields f n).1.keys = realKeysUnsorted f := by
  intro f
  induction f with
  | nil => intro n; rfl
  | cons k v tl ih =>
      intro n
      simp only [makeCopyOfFields, realKeysUnsorted]
      by_cases hr : isRealValue v = true
      · rw [if_pos hr, if_pos hr]
        by_cases ho : jsTypeof v == ("object")
        · rw [if_pos ho]
          simp only [FieldList.keys, ih]
        · rw [if_neg ho]
          simp only [FieldList.keys, ih]
      · rw [if_neg hr, if_neg hr]
        exact ih n

/-- C5: `startsWith`, `endsWith` and `contains` emit a regex filter node whose
pattern is the escaped literal anchored with a leading `^`, a trailing `$`, or
not at all respectively, with the case-insensitive flag exactly when
`ignoreCase` is set; the escaping prepends a backslash to every occurrence of
each character of `- [ ] { } ( ) * + ? . , \ ^ $ | #` and of every JS
whitespace character, and leaves every other character unchanged. -/
theorem string_filters_escape_and_anchor (key s : String) (ic : Bool) :
    (DataFilter.startsWith key s ic).query =
      some (.regexOp key (("^") ++ escapeRegExp s)
        (if ic then ("i") else (""))) ∧
    (DataFilter.endsWith key s ic).query =
      some (.regexOp key (escapeRegExp s ++ ("$"))
        (if ic then ("i") else (""))) ∧
    (DataFilter.contains key s ic).query =
      some (.regexOp key (escapeRegExp s) (if ic then ("i") else (""))) ∧
    (∀ c : Char, c ∈ regexSpecialChars ∨ isJsWhitespace c = true →
      escapeRegExp (String.mk [c]) = String.mk ['\\', c]) ∧
    (∀ s1 s2 : String,
      escapeRegExp (s1 ++ s2) = escapeRegExp s1 ++ escapeRegExp s2) ∧
    (∀ c : Char, ¬(c ∈ regexSpecialChars ∨ isJsWhitespace c = true) →
      escapeRegExp (String.mk [c]) = String.mk [c]) := by
  refine ⟨?_, ?_, ?_, ?_, ?_, ?_⟩
  · cases ic <;> rfl
  · cases ic <;> rfl
  · cases ic <;> rfl
  · intro c hc
    have hcond : (regexSpecialChars.contains c || isJsWhitespace c) = true := by
      rcases hc with h | h
      · simp [h]
      · simp [h]
    simp only [escapeRegExp]
    rw [show (String.mk [c]).toList = [c] from rfl]
    simp only [List.map_cons, List.map_nil, List.flatten_cons, List.flatten_nil]
    rw [if_pos hcond]
    simp
  · intro s1 s2
    obtain ⟨l1⟩ := s1
    obtain ⟨l2⟩ := s2
    have happ : ∀ a b : List Char, String.mk a ++ String.mk b = String.mk (a ++ b) :=
      fun a b => rfl
    simp [escapeRegExp]
    exact (happ _ _).symm
  · intro c hc
    have hcond : ¬((regexSpecialChars.contains c || isJsWhitespace c) = true) := by
      simp only [Bool.or_eq_true]
      rintro (hm | hw)
      · exact hc (Or.inl (by simpa using hm))
      · exact hc (Or.inr hw)
    simp only [escapeRegExp]
    rw [show (String.mk [c]).toList = [c] from rfl]
    simp only [List.map_cons, List.map_nil, List.flatten_cons, List.flatten_nil]
    rw [if_neg hcond]
    simp

/-- Witness for C5 at the literal "a(b" and the metacharacter `(`. -/
theorem string_filters_escape_and_anchor_witness :
    (('(' ∈ regexSpecialChars ∨ isJsWhitespace '(' = true) ∧
      escapeRegExp (String.mk ['(']) = String.mk ['\\', '(']) ∧
    (DataFilter.startsWith ("name") ("a(b") true).query =
      some (.regexOp ("name") (("^") ++ escapeRegExp ("a(b"))
        (if true then ("i") else (""))) :=
  ⟨⟨Or.inl (by decide),
    (string_filters_escape_and_anchor ("name") ("a(b") true).2.2.2.1 '('
      (Or.inl (by decide))⟩,
    (string_filters_escape_and_anchor ("name") ("a(b") true).1⟩

/-- C6: the deep copy taken for snapshots copies scalars by value, dates as
new instances (fresh identity) with the same instant, arrays element-wise and
objects key-by-key recursively — skipping function-valued and tracker-valued
fields — so that the copy deep-equals its source; every heap identity in the
copy is freshly allocated (at or above the allocation counter), hence disjoint
from the identities of any pre-existing value, and mutating any heap cell of
the live `ref` bound by `changeRef` leaves the copied `original` snapshot
unchanged. -/
theorem makeCopyOfObject_deep_copy (v : Value) (n : Nat)
    (hw : wfValue v = true) (hb : ∀ t ∈ objTags v, t < n) :
    (∀ t ∈ objTags (makeCopyOfObject v n).1, n ≤ t) ∧
    (∀ t, t ∈ objTags (makeCopyOfObject v n).1 → t ∉ objTags v) ∧
    (∀ (t : Nat) (g : Value → Value), t ∈ objTags v →
      mutateAt t g (makeCopyOfObject v n).1 = (makeCopyOfObject v n).1) ∧
    isEqualsRecursive (makeCopyOfObject v n).1 v = true ∧
    (∀ (tg : Nat) (m : Int), makeCopyOfObject (.vDate tg m) n = (.vDate n m, n + 1)) ∧
    (∀ p : Value, isPrimitiveLike p = true → makeCopyOfObject p n = (p, n)) ∧
    (∀ (tg : Nat) (f : FieldList),
      (objFields (makeCopyOfObject (.vObj tg f) n).1).keys = realKeysUnsorted f) ∧
    (∀ (st : DAOState) (t : Nat) (g : Value → Value), t ∈ objTags v →
      mutateAt t g (DataAccessObject.changeRef st v n).1.original =
        (DataAccessObject.changeRef st v n).1.original) := by
  have hfresh := (copyFresh (sizeOf v)).1 v n le_rfl
  have hmut : ∀ (t : Nat) (g : Value → Value), t ∈ objTags v →
      mutateAt t g (makeCopyOfObject v n).1 = (makeCopyOfObject v n).1 := by
    intro t g ht
    apply mutateAt_of_not_mem
    intro hc
    have h1 := hfresh.2 t hc
    have h2 := hb t ht
    omega
  refine ⟨hfresh.2, ?_, hmut, ?_, ?_, ?_, ?_, ?_⟩
  · intro t hc ht
    have h1 := hfresh.2 t hc
    have h2 := hb t ht
    omega
  · exact (copyIsEquals (sizeOf v)).1 v n le_rfl hw
  · intro tg m
    exact makeCopy_vDate tg m n
  · intro p hp
    exact makeCopy_prim hp n
  · intro tg f
    rw [makeCopy_vObj]
    exact copyFields_keys f (n + 1)
  · intro st t g ht
    exact hmut t g ht

/-- Witness for C6 at a concrete entity holding a date and a nested object,
copied with allocation counter 100. -/
theorem makeCopyOfObject_deep_copy_witness :
    wfValue (.vObj 0 (.cons ("d") (.vDate 1 77)
      (.cons ("o") (.vObj 2 (.cons ("x") (.vNum 5) .nil)) .nil))) = true ∧
    objTags (.vObj 0 (.cons ("d") (.vDate 1 77)
      (.cons ("o") (.vObj 2 (.cons ("x") (.vNum 5) .nil)) .nil))) = [0, 1, 2] ∧
    isEqualsRecursive
      (makeCopyOfObject (.vObj 0 (.cons ("d") (.vDate 1 77)
        (.cons ("o") (.vObj 2 (.cons ("x") (.vNum 5) .nil)) .nil))) 100).1
      (.vObj 0 (.cons ("d") (.vDate 1 77)
        (.cons ("o") (.vObj 2 (.cons ("x") (.vNum 5) .nil)) .nil))) = true :=
  ⟨by rfl, by rfl,
    (makeCopyOfObject_deep_copy
      (.vObj 0 (.cons ("d") (.vDate 1 77)
        (.cons ("o") (.vObj 2 (.cons ("x") (.vNum 5) .nil)) .nil))) 100
      (by rfl) (by decide)).2.2.2.1⟩

/-- C7: the Finder's `findByKey` short-circuits to "not found" (null) without
any driver call when the key value is null or undefined; otherwise it makes
exactly one driver `findByKey` call and returns the deserialized entity for a
truthy row, null for a falsy row (no data is never an error), while a driver
rejection propagates unchanged. -/
theorem finder_findByKey_short_circuit {ε : Type} (fin : DataFinder)
    (drv : String → String → Value → Except ε Value) (kv : Value) :
    ((kv = .vNull ∨ kv = .vUndefined) →
      DataFinder.findByKey fin drv kv = (.ok none, [])) ∧
    (kv ≠ .vNull → kv ≠ .vUndefined →
      (DataFinder.findByKey fin drv kv).2 =
        [.findByKeyCall fin.table fin.key kv] ∧
      (∀ row, drv fin.table fin.key kv = .ok row →
        (DataFinder.findByKey fin drv kv).1 =
          .ok (if jsTruthy row then some (fin.dataParse row) else none)) ∧
      (drv fin.table fin.key kv = .ok .vNull →
        (DataFinder.findByKey fin drv kv).1 = .ok none) ∧
      (∀ e2, drv fin.table fin.key kv = .error e2 →
        (DataFinder.findByKey fin drv kv).1 = .error e2)) := by
  constructor
  · rintro (rfl | rfl) <;> rfl
  · intro hn hu
    have hcall : DataAccessObject.findByKey drv fin.table fin.key kv =
        (drv fin.table fin.key kv, [.findByKeyCall fin.table fin.key kv]) := by
      cases kv <;> first | rfl | exact absurd rfl hn | exact absurd rfl hu
    have hmain : ∀ row, drv fin.table fin.key kv = .ok row →
        (DataFinder.findByKey fin drv kv).1 =
          .ok (if jsTruthy row then some (fin.dataParse row) else none) := by
      intro row hrow
      unfold DataFinder.findByKey
      rw [hcall]
      simp only [hrow]
      by_cases ht : jsTruthy row = true
      · simp [ht]
      · simp only [Bool.eq_false_iff.mpr ht, Bool.false_eq_true, if_false]
    refine ⟨?_, hmain, ?_, ?_⟩
    · unfold DataFinder.findByKey
      rw [hcall]
      cases hE : drv fin.table fin.key kv with
      | error e => simp only [hE]
      | ok row =>
          simp only [hE]
          by_cases ht : jsTruthy row = true
          · simp [ht]
          · simp only [Bool.eq_false_iff.mpr ht, Bool.false_eq_true, if_false]
    · intro hrow
      have := hmain .vNull hrow
      simpa [jsTruthy] using this
    · intro e2 he2
      unfold DataFinder.findByKey
      rw [hcall]
      simp only [he2]

/-- Witness for C7: a concrete finder with a null key short-circuits, and a
concrete driver row is deserialized. -/
theorem finder_findByKey_short_circuit_witness :
    ((Value.vNull = Value.vNull ∨ Value.vNull = Value.vUndefined) ∧
      DataFinder.findByKey (ε := Unit) ⟨("src"), ("tbl"), ("id"), id⟩
        (fun _ _ _ => .ok (.vObj 7 .nil)) .vNull = (.ok none, [])) ∧
    ((Value.vNum 1 ≠ Value.vNull) ∧ (Value.vNum 1 ≠ Value.vUndefined) ∧
      (DataFinder.findByKey (ε := Unit) ⟨("src"), ("tbl"), ("id"), id⟩
        (fun _ _ _ => .ok (.vObj 7 .nil)) (.vNum 1)).2 =
        [.findByKeyCall ("tbl") ("id") (.vNum 1)]) :=
  ⟨⟨Or.inl rfl,
    (finder_findByKey_short_circuit (ε := Unit) ⟨("src"), ("tbl"), ("id"), id⟩
      (fun _ _ _ => .ok (.vObj 7 .nil)) .vNull).1 (Or.inl rfl)⟩,
   ⟨by simp, by simp,
    ((finder_findByKey_short_circuit (ε := Unit) ⟨("src"), ("tbl"), ("id"), id⟩
      (fun _ _ _ => .ok (.vObj 7 .nil)) (.vNum 1)).2 (by simp) (by simp)).1⟩⟩

lemma enforceType_object_vStr (rt : JsRuntime) (n : Nat) (s : String) :
    enforceType rt n (.vStr s) ("object") =
      (if 0 < s.length then
        match rt.jsonParse (tildePayload s) with
        | some v => .ok v
        | none => .ok (.vObj n .nil)
      else .ok (.vObj n .nil)) := rfl

lemma enforceType_array_vStr (rt : JsRuntime) (n : Nat) (s : String) :
    enforceType rt n (.vStr s) ("array") =
      (if 0 < s.length then
        match rt.jsonParse (tildePayload s) with
        | some (.vArr t l) => .ok (.vArr t l)
        | some _ => .ok (.vArr n .nil)
        | none => .ok (.vArr n .nil)
      else .ok (.vArr n .nil)) := rfl

/-- C8: for target types "object" and "array", `enforceType` treats a
non-empty input string as JSON text: a leading `~` is stripped before the
payload is JSON-parsed, and a string without that prefix is parsed whole as
plain JSON. -/
theorem enforceType_tilde_json (rt : JsRuntime) (n : Nat) (s : String)
    (hs : 0 < s.length) :
    (headIsTilde s = true → tildePayload s = s.drop 1 ∧
      (∀ v, rt.jsonParse (s.drop 1) = some v →
        enforceType rt n (.vStr s) ("object") = .ok v) ∧
      (∀ (t : Nat) (l : ValueList), rt.jsonParse (s.drop 1) = some (.vArr t l) →
        enforceType rt n (.vStr s) ("array") = .ok (.vArr t l))) ∧
    (headIsTilde s = false → tildePayload s = s ∧
      (∀ v, rt.jsonParse s = some v →
        enforceType rt n (.vStr s) ("object") = .ok v) ∧
      (∀ (t : Nat) (l : ValueList), rt.jsonParse s = some (.vArr t l) →
        enforceType rt n (.vStr s) ("array") = .ok (.vArr t l))) := by
  constructor
  · intro hT
    have hpay : tildePayload s = s.drop 1 := by
      unfold tildePayload
      rw [hT]
      simp
    refine ⟨hpay, ?_, ?_⟩
    · intro v hp
      rw [enforceType_object_vStr, if_pos hs, hpay, hp]
    · intro t l hp
      rw [enforceType_array_vStr, if_pos hs, hpay, hp]
  · intro hT
    have hpay : tildePayload s = s := by
      unfold tildePayload
      rw [hT]
      simp
    refine ⟨hpay, ?_, ?_⟩
    · intro v hp
      rw [enforceType_object_vStr, if_pos hs, hpay, hp]
    · intro t l hp
      rw [enforceType_array_vStr, if_pos hs, hpay, hp]

/-- Witness for C8 with the tilde-prefixed text "~X" and a runtime whose
JSON parser returns the parsed text back as a string value. -/
theorem enforceType_tilde_json_witness :
    (0 < ("~X" : String).length) ∧ headIsTilde ("~X") = true ∧
    (⟨fun s2 => some (.vStr s2), id, id, id, fun _ => (""),
        fun _ => none⟩ : JsRuntime).jsonParse (("~X" : String).drop 1) =
      some (.vStr ("X")) ∧
    enforceType ⟨fun s2 => some (.vStr s2), id, id, id, fun _ => (""),
        fun _ => none⟩ 55 (.vStr ("~X")) ("object") = .ok (.vStr ("X")) :=
  ⟨by decide, by rfl, by rfl,
    (((enforceType_tilde_json ⟨fun s2 => some (.vStr s2), id, id, id,
        fun _ => (""), fun _ => none⟩ 55 ("~X") (by decide)).1 (by rfl)).2.1
      (.vStr ("X")) (by rfl))⟩

/-- C10: for target types "object" and "array", `enforceType` is total on
string inputs and never throws: a string that fails to JSON-parse yields an
empty object resp. empty array, a parse result that is not an array also
yields an empty array for target "array", an empty string yields the same
fallbacks, and null or undefined input yields null for every target type. -/
theorem enforceType_object_array_total (rt : JsRuntime) (n : Nat) :
    (∀ s : String, (∃ v, enforceType rt n (.vStr s) ("object") = .ok v) ∧
      (∃ v, enforceType rt n (.vStr s) ("array") = .ok v)) ∧
    (∀ s : String, 0 < s.length → rt.jsonParse (tildePayload s) = none →
      enforceType rt n (.vStr s) ("object") = .ok (.vObj n .nil) ∧
      enforceType rt n (.vStr s) ("array") = .ok (.vArr n .nil)) ∧
    (∀ (s : String) (v2 : Value), 0 < s.length →
      rt.jsonParse (tildePayload s) = some v2 →
      (∀ (t : Nat) (l : ValueList), v2 ≠ .vArr t l) →
      enforceType rt n (.vStr s) ("array") = .ok (.vArr n .nil)) ∧
    (∀ s : String, s.length = 0 →
      enforceType rt n (.vStr s) ("object") = .ok (.vObj n .nil) ∧
      enforceType rt n (.vStr s) ("array") = .ok (.vArr n .nil)) ∧
    (∀ ty : String, enforceType rt n .vNull ty = .ok .vNull ∧
      enforceType rt n .vUndefined ty = .ok .vNull) := by
  have hnone : ∀ s : String, 0 < s.length → rt.jsonParse (tildePayload s) = none →
      enforceType rt n (.vStr s) ("object") = .ok (.vObj n .nil) ∧
      enforceType rt n (.vStr s) ("array") = .ok (.vArr n .nil) := by
    intro s hs hp
    rw [enforceType_object_vStr, enforceType_array_vStr, if_pos hs, if_pos hs, hp]
    exact ⟨rfl, rfl⟩
  have hnonarr : ∀ (s : String) (v2 : Value), 0 < s.length →
      rt.jsonParse (tildePayload s) = some v2 →
      (∀ (t : Nat) (l : ValueList), v2 ≠ .vArr t l) →
      enforceType rt n (.vStr s) ("array") = .ok (.vArr n .nil) := by
    intro s v2 hs hp hna
    rw [enforceType_array_vStr, if_pos hs, hp]
    cases v2 with
    | vArr t l => exact absurd rfl (hna t l)
    | vNull => rfl
    | vUndefined => rfl
    | vBool b => rfl
    | vNum m => rfl
    | vStr s2 => rfl
    | vDate t m => rfl
    | vFunc t => rfl
    | vDAO t => rfl
    | vObj t f => rfl
  have hempty : ∀ s : String, s.length = 0 →
      enforceType rt n (.vStr s) ("object") = .ok (.vObj n .nil) ∧
      enforceType rt n (.vStr s) ("array") = .ok (.vArr n .nil) := by
    intro s hs
    have hzero : ¬ 0 < s.length := by omega
    rw [enforceType_object_vStr, enforceType_array_vStr, if_neg hzero,
      if_neg hzero]
    exact ⟨rfl, rfl⟩
  refine ⟨?_, hnone, hnonarr, hempty, fun ty => ⟨rfl, rfl⟩⟩
  intro s
  by_cases hs : 0 < s.length
  · cases hp : rt.jsonParse (tildePayload s) with
    | none =>
        obtain ⟨h1, h2⟩ := hnone s hs hp
        exact ⟨⟨.vObj n .nil, h1⟩, ⟨.vArr n .nil, h2⟩⟩
    | some v2 =>
        constructor
        · refine ⟨v2, ?_⟩
          rw [enforceType_object_vStr, if_pos hs, hp]
        · cases v2 with
          | vArr t l =>
              refine ⟨.vArr t l, ?_⟩
              rw [enforceType_array_vStr, if_pos hs, hp]
          | vNull => exact ⟨.vArr n .nil, by rw [enforceType_array_vStr, if_pos hs, hp]⟩
          | vUndefined => exact ⟨.vArr n .nil, by rw [enforceType_array_vStr, if_pos hs, hp]⟩
          | vBool b => exact ⟨.vArr n .nil, by rw [enforceType_array_vStr, if_pos hs, hp]⟩
          | vNum m => exact ⟨.vArr n .nil, by rw [enforceType_array_vStr, if_pos hs, hp]⟩
          | vStr s2 => exact ⟨.vArr n .nil, by rw [enforceType_array_vStr, if_pos hs, hp]⟩
          | vDate t m => exact ⟨.vArr n .nil, by rw [enforceType_array_vStr, if_pos hs, hp]⟩
          | vFunc t => exact ⟨.vArr n .nil, by rw [enforceType_array_vStr, if_pos hs, hp]⟩
          | vDAO t => exact ⟨.vArr n .nil, by rw [enforceType_array_vStr, if_pos hs, hp]⟩
          | vObj t f => exact ⟨.vArr n .nil, by rw [enforceType_array_vStr, if_pos hs, hp]⟩
  · have hz : s.length = 0 := by omega
    obtain ⟨h1, h2⟩ := hempty s hz
    exact ⟨⟨.vObj n .nil, h1⟩, ⟨.vArr n .nil, h2⟩⟩

/-- Witness for C10 with a runtime whose JSON parser always fails: the
invalid text "x" coerces to the empty object and the empty array. -/
theorem enforceType_object_array_total_witness :
    (0 < ("x" : String).length) ∧
    (⟨fun _ => none, id, id, id, fun _ => (""), fun _ => none⟩ :
        JsRuntime).jsonParse (tildePayload ("x")) = none ∧
    enforceType ⟨fun _ => none, id, id, id, fun _ => (""), fun _ => none⟩ 3
        (.vStr ("x")) ("object") = .ok (.vObj 3 .nil) ∧
    enforceType ⟨fun _ => none, id, id, id, fun _ => (""), fun _ => none⟩ 3
        (.vStr ("x")) ("array") = .ok (.vArr 3 .nil) := by
  refine ⟨by decide, by rfl, ?_, ?_⟩
  · exact ((enforceType_object_array_total
      ⟨fun _ => none, id, id, id, fun _ => (""), fun _ => none⟩ 3).2.1 ("x")
      (by decide) (by rfl)).1
  · exact ((enforceType_object_array_total
      ⟨fun _ => none, id, id, id, fun _ => (""), fun _ => none⟩ 3).2.1 ("x")
      (by decide) (by rfl)).2

/-- C9: `_hasChanged` compares the snapshot field and the live field with
strict `===` equality, not the deep structural equality `save` uses; at a
bound entity whose property holds a distinct (fresh identity) but
deep-structurally-equal object, `_hasChanged` reports a change while `save`
computes an empty diff, returns false and calls no driver. -/
theorem hasChanged_strict_vs_deep :
    (∀ (st : DAOState) (prop : String),
      DataModel.hasChangedProp st prop = true ↔
        jsStrictEq (getField st.original prop) (getField st.ref prop) = false) ∧
    DataModel.hasChangedProp
      ⟨("src"), ("tbl"), ("id"),
        .vObj 0 (.cons ("id") (.vNum 1)
          (.cons ("a") (.vObj 1 (.cons ("x") (.vNum 1) .nil)) .nil)),
        .vObj 2 (.cons ("id") (.vNum 1)
          (.cons ("a") (.vObj 3 (.cons ("x") (.vNum 1) .nil)) .nil))⟩
      ("a") = true ∧
    firstLevelObjectDifference
      (.vObj 0 (.cons ("id") (.vNum 1)
        (.cons ("a") (.vObj 1 (.cons ("x") (.vNum 1) .nil)) .nil)))
      (.vObj 2 (.cons ("id") (.vNum 1)
        (.cons ("a") (.vObj 3 (.cons ("x") (.vNum 1) .nil)) .nil))) = .nil ∧
    (∀ (ε : Type) (n : Nat)
      (dM : String → Option FilterOp → FieldList → Except ε Nat)
      (dU : String → String → Value → FieldList → Except ε Unit)
      (cond : Option DataFilter),
      DataAccessObject.save
        ⟨("src"), ("tbl"), ("id"),
          .vObj 0 (.cons ("id") (.vNum 1)
            (.cons ("a") (.vObj 1 (.cons ("x") (.vNum 1) .nil)) .nil)),
          .vObj 2 (.cons ("id") (.vNum 1)
            (.cons ("a") (.vObj 3 (.cons ("x") (.vNum 1) .nil)) .nil))⟩
        n dM dU cond =
        ⟨.ok false,
          ⟨("src"), ("tbl"), ("id"),
            .vObj 0 (.cons ("id") (.vNum 1)
              (.cons ("a") (.vObj 1 (.cons ("x") (.vNum 1) .nil)) .nil)),
            .vObj 2 (.cons ("id") (.vNum 1)
              (.cons ("a") (.vObj 3 (.cons ("x") (.vNum 1) .nil)) .nil))⟩,
          n, []⟩) := by
  refine ⟨?_, by rfl, by rfl, ?_⟩
  · intro st prop
    unfold DataModel.hasChangedProp
    simp [Bool.not_eq_true']
  · intro ε n dM dU cond
    exact save_empty_diff _ n dM dU cond (by decide) (by rfl)
